import Mathlib

/-! # xmlx: the node tree of `node.go`

A shallow embedding of the Go package `xmlx` (file `node.go`): the node and
attribute data model, the recursive qualified-name search, the typed accessors
and the kind-dispatched serializer.

Modelling conventions.

* A Go `string` is a Lean `String`; `len(s) == 0` is `s = ""`.
* A finite tree of `*Node` values (no sharing, no cycle, no nil child) is a value
  of the inductive type `Node`; a `*Node` result of a search is the subtree it
  points at, and the nil pointer is `none`.  The `Parent` back-reference is read
  by none of the searches, accessors and printers and is not part of the tree
  value.
* `AddChild` and `RemoveChild`, which assign to `Parent` and `Children`, act on a
  store of nodes addressed by pointers (namespace `store`); there the searches
  and the printer follow pointers and carry a bound on the depth of their calls.
* A position inside a tree is the list of child indices leading to it from the
  receiver (`Node.at?`); positions stand for pointer identity where a statement
  is about occurrences of nodes.
* The `byte` field `Type` is a natural number (the field is called `Type_`, and
  the Go parameter `namespace` is called `namespace_`, both being Lean keywords;
  the method `String` is called `String_`).
-/

/-- The type `xml.Name` of the Go library: a namespace and a local name. -/
structure xml.Name where
  Space : String
  Local : String
deriving DecidableEq

/-! ## The integer conversions of the Go library package `strconv`

`node.go` calls `strconv.Atoi`, `Atoi64`, `Atoui` and `Atoui64` and keeps the
value they return while discarding the error (`n, _ := strconv.Atoi(...)`).  These
functions belong to the Go standard library, not to this package; they are
transcribed here from the library release the package was written for (the one
with `os.Error`), so that the value kept by the accessors is determined.  Unsigned
machine integers are natural numbers reduced modulo `2^64`, signed ones are
integers wrapped into the two's-complement range.  A string is scanned character
by character; a character outside ASCII is rejected exactly as each of its bytes
is, so scanning characters and scanning bytes give the same result.
-/

/-- The two error values of package `os` that `strconv` reports for decimal
input, and the error for a base outside `2..36`. -/
inductive os.Error where
  | EINVAL
  | ERANGE
  | invalidBase
deriving DecidableEq

namespace strconv

/-- The function `cutoff64`: the first number `n` such that `n*base >= 1<<64`. -/
def cutoff64 (base : Nat) : Nat :=
  if base < 2 then 0 else (2 ^ 64 - 1) / base + 1

/-- The digit value of a byte in `Btoui64`: `d - '0'`, `d - 'a' + 10`, `d - 'A' + 10`,
or none for any other byte. -/
def digitVal (d : Char) : Option Nat :=
  if '0' ≤ d ∧ d ≤ '9' then some (d.toNat - '0'.toNat)
  else if 'a' ≤ d ∧ d ≤ 'z' then some (d.toNat - 'a'.toNat + 10)
  else if 'A' ≤ d ∧ d ≤ 'Z' then some (d.toNat - 'A'.toNat + 10)
  else none

/-- The digit loop of `Btoui64`, from the bytes still to read and the value `n`
accumulated so far. -/
def Btoui64_loop (b cutoff : Nat) : List Char → Nat → Nat × Option os.Error
  | [], n => (n, none)
  | d :: rest, n =>
    match digitVal d with
    | none => (0, some os.Error.EINVAL)
    | some v =>
      if v ≥ b then (0, some os.Error.EINVAL)
      else if n ≥ cutoff then (2 ^ 64 - 1, some os.Error.ERANGE)
      else
        let n0 := (n * b) % 2 ^ 64
        let n1 := (n0 + v) % 2 ^ 64
        if n1 < n0 then (2 ^ 64 - 1, some os.Error.ERANGE)
        else Btoui64_loop b cutoff rest n1

/-- The function `Btoui64` for an explicit base `2 <= b <= 36` (the detection of a
base from the input, for `b == 0`, is not transcribed: every call below passes
base 10). -/
def Btoui64 (s : String) (b : Nat) : Nat × Option os.Error :=
  if s.data.length < 1 then (0, some os.Error.EINVAL)
  else if 2 ≤ b ∧ b ≤ 36 then Btoui64_loop b (cutoff64 b) s.data 0
  else (0, some os.Error.invalidBase)

/-- The function `Atoui64`. -/
def Atoui64 (s : String) : Nat × Option os.Error :=
  Btoui64 s 10

/-- Conversion of an integer to a signed machine integer of `w` bits. -/
def wrapSigned (w : Nat) (x : Int) : Int :=
  (x + 2 ^ (w - 1)) % 2 ^ w - 2 ^ (w - 1)

/-- The function `Btoi64`: an optional sign, then `Btoui64`, then the range check. -/
def Btoi64 (s : String) (base : Nat) : Int × Option os.Error :=
  match s.data with
  | [] => (0, some os.Error.EINVAL)
  | c :: rest =>
    let neg : Bool := c == '-'
    let s1 : String := if c == '+' || c == '-' then String.mk rest else s
    let r := Btoui64 s1 base
    let un := r.1
    let err := r.2
    if err ≠ none ∧ err ≠ some os.Error.ERANGE then (0, err)
    else if neg = false ∧ un ≥ 2 ^ 63 then (2 ^ 63 - 1, some os.Error.ERANGE)
    else if neg = true ∧ un > 2 ^ 63 then (-(2 ^ 63), some os.Error.ERANGE)
    else
      let n := wrapSigned 64 (un : Int)
      (if neg then wrapSigned 64 (-n) else n, none)

/-- The function `Atoi64`. -/
def Atoi64 (s : String) : Int × Option os.Error :=
  Btoi64 s 10

/-- The function `Atoui`, for a `uint` of `IntSize` bits. -/
def Atoui (IntSize : Nat) (s : String) : Nat × Option os.Error :=
  let r := Atoui64 s
  let i1 := r.1
  let e1 := r.2
  if e1 ≠ none ∧ e1 ≠ some os.Error.ERANGE then (0, e1)
  else
    let i := i1 % 2 ^ IntSize
    if i ≠ i1 then (2 ^ IntSize - 1, some os.Error.ERANGE)
    else (i, none)

/-- The function `Atoi`, for an `int` of `IntSize` bits. -/
def Atoi (IntSize : Nat) (s : String) : Int × Option os.Error :=
  let r := Atoi64 s
  let i1 := r.1
  let e1 := r.2
  if e1 ≠ none ∧ e1 ≠ some os.Error.ERANGE then (0, e1)
  else
    let i := wrapSigned IntSize i1
    if i ≠ i1 then
      if i1 < 0 then (-(2 ^ (IntSize - 1)), some os.Error.ERANGE)
      else (2 ^ (IntSize - 1) - 1, some os.Error.ERANGE)
    else (i, none)

end strconv

namespace xmlx

/-- Node kinds (`const ( NT_ROOT = iota ... )`). -/
def NT_ROOT : Nat := 0
def NT_DIRECTIVE : Nat := 1
def NT_PROCINST : Nat := 2
def NT_COMMENT : Nat := 3
def NT_ELEMENT : Nat := 4

/-- The struct `Attr`. -/
structure Attr where
  Name : xml.Name
  Value : String
deriving DecidableEq

/-- The struct `Node`, with `Children` holding the child subtrees. -/
inductive Node where
  | mk (Type_ : Nat) (Name : xml.Name) (Children : List Node)
      (Attributes : List Attr) (Value : String) (Target : String) : Node

namespace Node

def Type_ : Node → Nat
  | mk t _ _ _ _ _ => t

def Name : Node → xml.Name
  | mk _ n _ _ _ _ => n

def Children : Node → List Node
  | mk _ _ cs _ _ _ => cs

def Attributes : Node → List Attr
  | mk _ _ _ as _ _ => as

def Value : Node → String
  | mk _ _ _ _ v _ => v

def Target : Node → String
  | mk _ _ _ _ _ t => t

end Node

/-! ## Search (`node.go` lines 206-245) -/

mutual
/-- The function `rec_SelectNode`: test `cn`, then search the children in order. -/
def rec_SelectNode : Node → String → String → Option Node
  | Node.mk ty nm cs as v tg, namespace_, name =>
    if (namespace_ == "*" || nm.Space == namespace_) && nm.Local == name then
      some (Node.mk ty nm cs as v tg)
    else
      rec_SelectNode_range cs namespace_ name
/-- The loop `for _, v := range cn.Children` of `rec_SelectNode`. -/
def rec_SelectNode_range : List Node → String → String → Option Node
  | [], _, _ => none
  | v :: rest, namespace_, name =>
    match rec_SelectNode v namespace_ name with
    | some tn => some tn
    | none => rec_SelectNode_range rest namespace_ name
end

/-- The method `SelectNode`. -/
def Node.SelectNode (this : Node) (namespace_ name : String) : Option Node :=
  rec_SelectNode this namespace_ name

mutual
/-- The function `rec_SelectNodes`; the list behind the pointer `list` is passed in
and the updated list is returned. -/
def rec_SelectNodes : Node → String → String → List Node → List Node
  | Node.mk ty nm cs as v tg, namespace_, name, list =>
    if (namespace_ == "*" || nm.Space == namespace_) && nm.Local == name then
      list ++ [Node.mk ty nm cs as v tg]
    else
      rec_SelectNodes_range cs namespace_ name list
/-- The loop `for _, v := range cn.Children` of `rec_SelectNodes`. -/
def rec_SelectNodes_range : List Node → String → String → List Node → List Node
  | [], _, _, list => list
  | v :: rest, namespace_, name, list =>
    rec_SelectNodes_range rest namespace_ name (rec_SelectNodes v namespace_ name list)
end

/-- The method `SelectNodes`. -/
def Node.SelectNodes (this : Node) (namespace_ name : String) : List Node :=
  rec_SelectNodes this namespace_ name []

/-! ## Typed accessors (`node.go` lines 52-204)

The kind `int`/`uint` has `IntSize` bits, a parameter.  The float and bool
conversions of `strconv` are parameters of the accessors that call them: the type
of floats is any type `F` with a zero. -/

/-- The method `S`: node value as string. -/
def Node.S (this : Node) (namespace_ name : String) : String :=
  match rec_SelectNode this namespace_ name with
  | some node => node.Value
  | none => ""

/-- The method `I`: node value as int. -/
def Node.I (IntSize : Nat) (this : Node) (namespace_ name : String) : Int :=
  match rec_SelectNode this namespace_ name with
  | some node => if node.Value ≠ "" then (strconv.Atoi IntSize node.Value).1 else 0
  | none => 0

/-- The method `I64`: node value as int64. -/
def Node.I64 (this : Node) (namespace_ name : String) : Int :=
  match rec_SelectNode this namespace_ name with
  | some node => if node.Value ≠ "" then (strconv.Atoi64 node.Value).1 else 0
  | none => 0

/-- The method `U`: node value as uint. -/
def Node.U (IntSize : Nat) (this : Node) (namespace_ name : String) : Nat :=
  match rec_SelectNode this namespace_ name with
  | some node => if node.Value ≠ "" then (strconv.Atoui IntSize node.Value).1 else 0
  | none => 0

/-- The method `U64`: node value as uint64. -/
def Node.U64 (this : Node) (namespace_ name : String) : Nat :=
  match rec_SelectNode this namespace_ name with
  | some node => if node.Value ≠ "" then (strconv.Atoui64 node.Value).1 else 0
  | none => 0

/-- The loop `for _, v := range this.Attributes` of `As`. -/
def As_range : List Attr → String → String → String
  | [], _, _ => ""
  | v :: rest, namespace_, name =>
    if (namespace_ == "*" || namespace_ == v.Name.Space) && name == v.Name.Local then
      v.Value
    else
      As_range rest namespace_ name

/-- The method `As`: attribute value as string. -/
def Node.As (this : Node) (namespace_ name : String) : String :=
  As_range this.Attributes namespace_ name

/-- The method `Ai`: attribute value as int. -/
def Node.Ai (IntSize : Nat) (this : Node) (namespace_ name : String) : Int :=
  let s := this.As namespace_ name
  if s ≠ "" then (strconv.Atoi IntSize s).1 else 0

/-- The method `Au`: attribute value as uint. -/
def Node.Au (IntSize : Nat) (this : Node) (namespace_ name : String) : Nat :=
  let s := this.As namespace_ name
  if s ≠ "" then (strconv.Atoui IntSize s).1 else 0

/-- The method `Au64`: attribute value as uint64. -/
def Node.Au64 (this : Node) (namespace_ name : String) : Nat :=
  let s := this.As namespace_ name
  if s ≠ "" then (strconv.Atoui64 s).1 else 0

/-- The method `Ai64`: attribute value as int64. -/
def Node.Ai64 (this : Node) (namespace_ name : String) : Int :=
  let s := this.As namespace_ name
  if s ≠ "" then (strconv.Atoi64 s).1 else 0

/-- The method `Af32`: attribute value as float32; `Atof32` is the library
conversion. -/
def Node.Af32 {F : Type} [Zero F] (Atof32 : String → F × Option os.Error)
    (this : Node) (namespace_ name : String) : F :=
  let s := this.As namespace_ name
  if s ≠ "" then (Atof32 s).1 else 0

/-- The method `Af64`: attribute value as float64; `Atof64` is the library
conversion. -/
def Node.Af64 {F : Type} [Zero F] (Atof64 : String → F × Option os.Error)
    (this : Node) (namespace_ name : String) : F :=
  let s := this.As namespace_ name
  if s ≠ "" then (Atof64 s).1 else 0

/-- The method `Ab`: attribute value as bool; `Atob` is the library conversion. -/
def Node.Ab (Atob : String → Bool × Option os.Error)
    (this : Node) (namespace_ name : String) : Bool :=
  let s := this.As namespace_ name
  if s ≠ "" then (Atob s).1 else false

/-- The loop `for _, v := range this.Attributes` of `HasAttr`. -/
def HasAttr_range : List Attr → String → String → Bool
  | [], _, _ => false
  | v :: rest, namespace_, name =>
    if (namespace_ == "*" || namespace_ == v.Name.Space) && name == v.Name.Local then
      true
    else
      HasAttr_range rest namespace_ name

/-- The method `HasAttr`. -/
def Node.HasAttr (this : Node) (namespace_ name : String) : Bool :=
  HasAttr_range this.Attributes namespace_ name

/-! ## Serialization (`node.go` lines 247-341)

A `[]byte` and the contents of a `bytes.Buffer` are a `String`; writing to the
buffer appends.  `len(x) > 0` and `len(x) == 0` on a string are `x ≠ ""` and
`x = ""`. -/

/-- The method `printProcInst`. -/
def Node.printProcInst (this : Node) : String :=
  "<?" ++ this.Target ++ " " ++ this.Value ++ "?>"

/-- The method `printComment`. -/
def Node.printComment (this : Node) : String :=
  "<!-- " ++ this.Value ++ " -->"

/-- The method `printDirective`. -/
def Node.printDirective (this : Node) : String :=
  "<!" ++ this.Value ++ "!>"

/-- The loop `for _, v := range this.Attributes` of `printElement`, appending to the
buffer `b`. -/
def printElement_attrs : List Attr → String → String
  | [], b => b
  | v :: rest, b =>
    if v.Name.Space ≠ "" then
      printElement_attrs rest
        (b ++ (" " ++ v.Name.Space ++ ":" ++ v.Name.Local ++ "=\"" ++ v.Value ++ "\""))
    else
      printElement_attrs rest (b ++ (" " ++ v.Name.Local ++ "=\"" ++ v.Value ++ "\""))

mutual
/-- The method `Bytes`: dispatch on the node type; a type outside the five kinds
leaves `b` nil. -/
def Node.Bytes : Node → String
  | Node.mk ty nm cs as v tg =>
    if ty = NT_PROCINST then (Node.mk ty nm cs as v tg).printProcInst
    else if ty = NT_COMMENT then (Node.mk ty nm cs as v tg).printComment
    else if ty = NT_DIRECTIVE then (Node.mk ty nm cs as v tg).printDirective
    else if ty = NT_ELEMENT then Node.printElement (Node.mk ty nm cs as v tg)
    else if ty = NT_ROOT then Node.printRoot (Node.mk ty nm cs as v tg)
    else ""
termination_by n => (sizeOf n, 1)
/-- The method `String` (called `String_`, the name `Node.String` would hide the type
`String` in every later declaration about nodes). -/
def Node.String_ : Node → String
  | n => Node.Bytes n
termination_by n => (sizeOf n, 2)
/-- The method `printRoot`. -/
def Node.printRoot : Node → String
  | Node.mk _ _ cs _ _ _ => printRoot_range cs ""
termination_by n => (sizeOf n, 0)
/-- The loop `for _, v := range this.Children` of `printRoot`, appending to `b`. -/
def printRoot_range : List Node → String → String
  | [], b => b
  | v :: rest, b => printRoot_range rest (b ++ Node.String_ v)
termination_by l => (sizeOf l, 0)
/-- The method `printElement`. -/
def Node.printElement : Node → String
  | Node.mk _ nm cs as v _ =>
    let b := ""
    let b := if nm.Space ≠ "" then b ++ "<" ++ nm.Space ++ ":" ++ nm.Local
             else b ++ "<" ++ nm.Local
    let b := printElement_attrs as b
    if cs.length = 0 ∧ v = "" then b ++ " />"
    else
      let b := b ++ ">"
      let b := printElement_range cs b
      let b := b ++ v
      if nm.Space ≠ "" then b ++ "</" ++ nm.Space ++ ":" ++ nm.Local ++ ">"
      else b ++ "</" ++ nm.Local ++ ">"
termination_by n => (sizeOf n, 0)
/-- The loop `for _, v := range this.Children` of `printElement`, appending to `b`. -/
def printElement_range : List Node → String → String
  | [], b => b
  | v :: rest, b => printElement_range rest (b ++ Node.String_ v)
termination_by l => (sizeOf l, 0)
end

/-! ## Specification vocabulary -/

/-- The match predicate of the search, on a qualified name. -/
def nameMatches (namespace_ name : String) (q : xml.Name) : Bool :=
  (namespace_ == "*" || namespace_ == q.Space) && name == q.Local

mutual
/-- Depth-first pre-order listing of a subtree: the node itself, then the listing
of each child, left to right. -/
def Node.preorder : Node → List Node
  | Node.mk ty nm cs as v tg => Node.mk ty nm cs as v tg :: preorderList cs
/-- Pre-order listing of a sequence of sibling subtrees. -/
def preorderList : List Node → List Node
  | [] => []
  | c :: cs => c.preorder ++ preorderList cs
end

/-- The match predicate on a node. -/
def Node.matches (n : Node) (namespace_ name : String) : Bool :=
  nameMatches namespace_ name n.Name

/-- The node at a position: follow the child indices of the path from the
receiver. -/
def Node.at? : Node → List Nat → Option Node
  | n, [] => some n
  | n, i :: p =>
    match n.Children[i]? with
    | some c => c.at? p
    | none => none

mutual
/-- The positions of a subtree in depth-first pre-order: the receiver (the empty
path), then the positions of each child, left to right. -/
def Node.positions : Node → List (List Nat)
  | Node.mk _ _ cs _ _ _ => [] :: positionsFrom 0 cs
/-- The positions below the children `cs`, the first of which has index `i`. -/
def positionsFrom : Nat → List Node → List (List Nat)
  | _, [] => []
  | i, c :: cs => (c.positions.map (fun p => i :: p)) ++ positionsFrom (i + 1) cs
end

/-- Whether the node at position `p` of `t` exists and satisfies the match
predicate. -/
def Node.matchesAt (t : Node) (namespace_ name : String) (p : List Nat) : Bool :=
  match t.at? p with
  | some n => n.matches namespace_ name
  | none => false

/-- The positions of the proper ancestors of position `p` inside the receiver's
subtree: the strict initial segments of `p`. -/
def properAncestors (p : List Nat) : List (List Nat) :=
  p.inits.dropLast

/-- The node at `p` matches and none of its proper ancestors inside the receiver's
subtree does. -/
def Node.topMatch (t : Node) (namespace_ name : String) (p : List Nat) : Bool :=
  t.matchesAt namespace_ name p
    && (properAncestors p).all (fun q => !t.matchesAt namespace_ name q)

/-- The proper descendants of a node, in pre-order. -/
def Node.descendants (n : Node) : List Node :=
  preorderList n.Children

/-- A qualified name as the serializer writes it: `Space:Local`, or `Local` alone
when the namespace is empty. -/
def qname (q : xml.Name) : String :=
  if q.Space ≠ "" then q.Space ++ ":" ++ q.Local else q.Local

/-- One attribute as the serializer writes it: a space, the qualified name, `="`,
the value verbatim, `"`. -/
def attrText (a : Attr) : String :=
  " " ++ qname a.Name ++ "=\"" ++ a.Value ++ "\""

/-- Concatenation of a list of strings. -/
def concat (l : List String) : String :=
  l.foldr (fun x acc => x ++ acc) ""

/-! ## Example trees -/

/-- An element "foo" holding an element "bar" that holds a nested "foo". -/
def nestedFoo : Node :=
  Node.mk NT_ELEMENT ⟨"", "foo"⟩
    [Node.mk NT_ELEMENT ⟨"", "bar"⟩
      [Node.mk NT_ELEMENT ⟨"ns", "foo"⟩ [] [] "inner" ""] [] "" ""] [] "outer" ""

/-- The nested "foo" of `nestedFoo`. -/
def innerFoo : Node :=
  Node.mk NT_ELEMENT ⟨"ns", "foo"⟩ [] [] "inner" ""

/-- A node "x" without namespace. -/
def plainX : Node :=
  Node.mk NT_ELEMENT ⟨"", "x"⟩ [] [] "1" ""

/-- A root holding an "x" in namespace "ns", a "y" holding `plainX`, and an "x" in
namespace "other". -/
def mixedNamespaces : Node :=
  Node.mk NT_ROOT ⟨"", ""⟩
    [Node.mk NT_ELEMENT ⟨"ns", "x"⟩ [] [] "0" "",
     Node.mk NT_ELEMENT ⟨"", "y"⟩ [plainX] [] "" "",
     Node.mk NT_ELEMENT ⟨"other", "x"⟩ [] [] "2" ""] [] "" ""

/-- An element "count" whose text, and whose attribute "count", is a decimal numeral
beyond the range of every integer type. -/
def hugeCount : Node :=
  Node.mk NT_ELEMENT ⟨"", "count"⟩ [] [⟨⟨"", "count"⟩, "99999999999999999999"⟩]
    "99999999999999999999" ""

/-- A tree whose descendant "count" has the text "abc", the receiver carrying an
attribute "count" with the same text. -/
def abcCount : Node :=
  Node.mk NT_ELEMENT ⟨"", "order"⟩
    [Node.mk NT_ELEMENT ⟨"", "count"⟩ [] [] "abc" ""] [⟨⟨"", "count"⟩, "abc"⟩] "" ""

/-- A tree whose first "note" in document order has an empty text and whose second
"note" has the text "later". -/
def twoNotes : Node :=
  Node.mk NT_ELEMENT ⟨"", "doc"⟩
    [Node.mk NT_ELEMENT ⟨"", "note"⟩ [] [] "" "",
     Node.mk NT_ELEMENT ⟨"", "note"⟩ [] [] "later" ""] [] "text" ""

/-- A node with two attributes "id" (namespaces "a" and "b") and a child that has an
attribute "id" and an attribute "only" of its own. -/
def attrsNode : Node :=
  Node.mk NT_ELEMENT ⟨"", "n"⟩
    [Node.mk NT_ELEMENT ⟨"", "c"⟩ [] [⟨⟨"", "id"⟩, "child"⟩, ⟨⟨"", "only"⟩, "child"⟩] "" ""]
    [⟨⟨"a", "id"⟩, "first"⟩, ⟨⟨"b", "id"⟩, "second"⟩] "" ""

/-- The element `item` with the attribute `id="7"`, the text "hi" and no child. -/
def itemNode : Node :=
  Node.mk NT_ELEMENT ⟨"", "item"⟩ [] [⟨⟨"", "id"⟩, "7"⟩] "hi" ""

/-- An element in namespace "ns" holding `itemNode`, with markup characters in its
attribute value and in its text. -/
def rawNode : Node :=
  Node.mk NT_ELEMENT ⟨"ns", "t"⟩ [itemNode] [⟨⟨"x", "a"⟩, "<\"&>"⟩] "a<b&c>\"d\"" ""

/-- The element "name" without namespace, attributes, children and text. -/
def nameNode : Node :=
  Node.mk NT_ELEMENT ⟨"", "name"⟩ [] [] "" ""

/-- A Root with a name, an attribute, a text and a target of its own, holding a
comment and the element `nameNode`. -/
def rootNode : Node :=
  Node.mk NT_ROOT ⟨"ns", "r"⟩ [Node.mk NT_COMMENT ⟨"", ""⟩ [] [] "c" "", nameNode]
    [⟨⟨"", "id"⟩, "7"⟩] "text" "target"

/-- A processing instruction that also carries a name, an attribute and a child. -/
def procNode : Node :=
  Node.mk NT_PROCINST ⟨"n", "m"⟩ [nameNode] [⟨⟨"", "id"⟩, "7"⟩] "version=\"1.0\"" "xml"

/-- A comment that also carries a name, an attribute, a child and a target. -/
def commentNode : Node :=
  Node.mk NT_COMMENT ⟨"n", "m"⟩ [nameNode] [⟨⟨"", "id"⟩, "7"⟩] "note" "t"

/-- A directive that also carries a name, an attribute, a child and a target. -/
def directiveNode : Node :=
  Node.mk NT_DIRECTIVE ⟨"n", "m"⟩ [nameNode] [⟨⟨"", "id"⟩, "7"⟩] "DOCTYPE html" "t"

/-! ## Mutable trees: nodes in a store (`node.go` lines 28-44 and 343-370)

`AddChild` and `RemoveChild` update the fields `Children` and `Parent` of nodes that
other nodes point at, so the state they act on is a store of nodes addressed by
pointers.  A pointer `*Node` is a natural number, the store is the list of the nodes
allocated so far (the node at address `p` is the `p`-th entry), and the nil pointer
is `none`.  The receiver and the argument of a method are pointers to nodes, never
nil.  Each node owns its `Children` slice (they come from `make` in `NewNode` and are
only ever changed by `append` and by the shift inside `RemoveChild`), so a slice is a
list value.  A search or a rendering that follows the child pointers need not come
back when these form a cycle: the functions that recurse take a bound `fuel` on the
depth of the calls and answer `none` when it is used up. -/

namespace store

/-- A pointer `*Node`: the address of a node in the store. -/
abbrev Ptr := Nat

/-- The struct `Node` as it lies in memory: the children and the parent are
pointers. -/
structure Node where
  Type_ : Nat
  Name : xml.Name
  Children : List Ptr
  Attributes : List Attr
  Parent : Option Ptr
  Value : String
  Target : String
deriving DecidableEq

/-- The memory: the list of the nodes allocated so far. -/
abbrev Store := List Node

/-- The field `Children` of the node at `p` (no children at an address that holds no
node). -/
def children (h : Store) (p : Ptr) : List Ptr :=
  match h[p]? with
  | some n => n.Children
  | none => []

/-- The field `Parent` of the node at `p`. -/
def parent (h : Store) (p : Ptr) : Option Ptr :=
  match h[p]? with
  | some n => n.Parent
  | none => none

/-- The assignment `p.Children = cs`. -/
def setChildren (h : Store) (p : Ptr) (cs : List Ptr) : Store :=
  match h[p]? with
  | some n => h.set p { n with Children := cs }
  | none => h

/-- The assignment `p.Parent = q`. -/
def setParent (h : Store) (p : Ptr) (q : Option Ptr) : Store :=
  match h[p]? with
  | some n => h.set p { n with Parent := q }
  | none => h

/-- The function `NewNode`: a node of type `tid` without children, attributes and
parent is allocated at the next free address, which is returned. -/
def NewNode (h : Store) (tid : Nat) : Store × Ptr :=
  (h ++ [{ Type_ := tid, Name := ⟨"", ""⟩, Children := [], Attributes := [],
           Parent := none, Value := "", Target := "" }], h.length)

/-- The loop of `RemoveChild` that looks for the first index `i` with
`this.Children[i] == t`, counting from `i`; `none` stands for `p == -1`. -/
def RemoveChild_range (t : Ptr) : List Ptr → Nat → Option Nat
  | [], _ => none
  | v :: rest, i => if v = t then some i else RemoveChild_range t rest (i + 1)

/-- The method `RemoveChild`: the children after index `p` are shifted down by one
and the slice is shortened by one, then `t.Parent = nil`. -/
def RemoveChild (h : Store) (this t : Ptr) : Store :=
  match RemoveChild_range t (children h this) 0 with
  | none => h
  | some p =>
    let h1 := setChildren h this
      ((children h this).take p ++ (children h this).drop (p + 1))
    setParent h1 t none

/-- The method `AddChild`. -/
def AddChild (h : Store) (this t : Ptr) : Store :=
  let h1 := match parent h t with
    | some q => RemoveChild h q t
    | none => h
  let h2 := setParent h1 t (some this)
  setChildren h2 this (children h2 this ++ [t])

/-- Direct population of the name, the attributes, the value and the target of the
node at `p`, as a parser does after `NewNode`. -/
def populate (h : Store) (p : Ptr) (nm : xml.Name) (as : List Attr) (v tg : String) :
    Store :=
  match h[p]? with
  | some n => h.set p { n with Name := nm, Attributes := as, Value := v, Target := tg }
  | none => h

/-! ### Search and rendering in a store -/

/-- The loop `for _, v := range cn.Children` of `rec_SelectNode`; `f` is the
recursive call. -/
def rec_SelectNode_range (f : Ptr → Option (Option Ptr)) : List Ptr → Option (Option Ptr)
  | [] => some none
  | v :: rest =>
    match f v with
    | none => none
    | some (some tn) => some (some tn)
    | some none => rec_SelectNode_range f rest

/-- The function `rec_SelectNode`; the answer `some none` is the nil pointer. -/
def rec_SelectNode (h : Store) : Nat → Ptr → String → String → Option (Option Ptr)
  | 0, _, _, _ => none
  | fuel + 1, cn, namespace_, name =>
    match h[cn]? with
    | none => none
    | some node =>
      if (namespace_ == "*" || node.Name.Space == namespace_) && node.Name.Local == name then
        some (some cn)
      else
        rec_SelectNode_range (fun v => rec_SelectNode h fuel v namespace_ name) node.Children

/-- The method `SelectNode`. -/
def SelectNode (h : Store) (fuel : Nat) (this : Ptr) (namespace_ name : String) :
    Option (Option Ptr) :=
  rec_SelectNode h fuel this namespace_ name

/-- The loop `for _, v := range cn.Children` of `rec_SelectNodes`; `f` is the
recursive call, from a list to the updated list. -/
def rec_SelectNodes_range (f : Ptr → List Ptr → Option (List Ptr)) :
    List Ptr → List Ptr → Option (List Ptr)
  | [], list => some list
  | v :: rest, list =>
    match f v list with
    | none => none
    | some list1 => rec_SelectNodes_range f rest list1

/-- The function `rec_SelectNodes`. -/
def rec_SelectNodes (h : Store) :
    Nat → Ptr → String → String → List Ptr → Option (List Ptr)
  | 0, _, _, _, _ => none
  | fuel + 1, cn, namespace_, name, list =>
    match h[cn]? with
    | none => none
    | some node =>
      if (namespace_ == "*" || node.Name.Space == namespace_) && node.Name.Local == name then
        some (list ++ [cn])
      else
        rec_SelectNodes_range (fun v l => rec_SelectNodes h fuel v namespace_ name l)
          node.Children list

/-- The method `SelectNodes`. -/
def SelectNodes (h : Store) (fuel : Nat) (this : Ptr) (namespace_ name : String) :
    Option (List Ptr) :=
  rec_SelectNodes h fuel this namespace_ name []

/-- The loop `for _, v := range this.Children` of `printRoot` and of `printElement`,
appending to the buffer `b`; `render` is the call `v.String()`. -/
def printChildren_range (render : Ptr → Option String) : List Ptr → String → Option String
  | [], b => some b
  | v :: rest, b =>
    match render v with
    | none => none
    | some s => printChildren_range render rest (b ++ s)

/-- The method `printRoot`, on the node read at the receiver. -/
def printRoot (render : Ptr → Option String) (this : Node) : Option String :=
  printChildren_range render this.Children ""

/-- The method `printElement`, on the node read at the receiver. -/
def printElement (render : Ptr → Option String) (this : Node) : Option String :=
  let b := ""
  let b := if this.Name.Space ≠ "" then b ++ "<" ++ this.Name.Space ++ ":" ++ this.Name.Local
           else b ++ "<" ++ this.Name.Local
  let b := printElement_attrs this.Attributes b
  if this.Children.length = 0 ∧ this.Value = "" then some (b ++ " />")
  else
    match printChildren_range render this.Children (b ++ ">") with
    | none => none
    | some b1 =>
      let b2 := b1 ++ this.Value
      if this.Name.Space ≠ "" then
        some (b2 ++ "</" ++ this.Name.Space ++ ":" ++ this.Name.Local ++ ">")
      else some (b2 ++ "</" ++ this.Name.Local ++ ">")

/-- The method `Bytes`; the call `v.String()` made for a child is `Bytes` again. -/
def Bytes (h : Store) : Nat → Ptr → Option String
  | 0, _ => none
  | fuel + 1, this =>
    match h[this]? with
    | none => none
    | some n =>
      if n.Type_ = NT_PROCINST then some ("<?" ++ n.Target ++ " " ++ n.Value ++ "?>")
      else if n.Type_ = NT_COMMENT then some ("<!-- " ++ n.Value ++ " -->")
      else if n.Type_ = NT_DIRECTIVE then some ("<!" ++ n.Value ++ "!>")
      else if n.Type_ = NT_ELEMENT then printElement (fun v => Bytes h fuel v) n
      else if n.Type_ = NT_ROOT then printRoot (fun v => Bytes h fuel v) n
      else some ""

/-- The method `String` (called `String_`). -/
def String_ (h : Store) (fuel : Nat) (this : Ptr) : Option String :=
  Bytes h fuel this

/-! ### Specification vocabulary for stores -/

/-- Single-parent well-formedness of a store: the children of every node are
allocated, pairwise different and have that node as their parent, and a node with a
parent is among the children of that parent. -/
def WellFormed (h : Store) : Prop :=
  ∀ p < h.length,
    (children h p).Nodup
      ∧ (∀ c ∈ children h p, c < h.length ∧ parent h c = some p)
      ∧ (∀ q ∈ parent h p, q < h.length ∧ p ∈ children h q)

instance (h : Store) : Decidable (WellFormed h) := by
  unfold WellFormed
  infer_instance

/-- The states reachable from the empty store by `NewNode`, by `AddChild` and
`RemoveChild` on any two allocated nodes, and by populating an allocated node. -/
inductive Reachable : Store → Prop where
  | empty : Reachable []
  | newNode (h : Store) (tid : Nat) : Reachable h → Reachable (NewNode h tid).1
  | addChild (h : Store) (this t : Ptr) :
      Reachable h → this < h.length → t < h.length → Reachable (AddChild h this t)
  | removeChild (h : Store) (this t : Ptr) :
      Reachable h → this < h.length → t < h.length → Reachable (RemoveChild h this t)
  | populate (h : Store) (p : Ptr) (nm : xml.Name) (as : List Attr) (v tg : String) :
      Reachable h → p < h.length → Reachable (populate h p nm as v tg)

/-- The child link: `c` is among the children of `p`. -/
def link (h : Store) (p c : Ptr) : Prop :=
  c ∈ children h p

/-- The node `d` is a descendant of `a`: it is reached from `a` by one or more child
links. -/
def Descendant (h : Store) (a d : Ptr) : Prop :=
  Relation.TransGen (link h) a d

/-- The node `d` lies in the subtree of `a`: it is `a` or a descendant of `a`. -/
def InSubtree (h : Store) (a d : Ptr) : Prop :=
  Relation.ReflTransGen (link h) a d

/-- The child links form no cycle: no node is its own descendant. -/
def Acyclic (h : Store) : Prop :=
  ∀ p, ¬ Descendant h p p

/-- The store after the first statement of `AddChild`: `t` is removed from the
children of its parent, when it has one. -/
def detach (h : Store) (t : Ptr) : Store :=
  match parent h t with
  | some q => RemoveChild h q t
  | none => h

/-- Whether the node at `p` satisfies the match predicate of the search. -/
def nodeMatches (h : Store) (namespace_ name : String) (p : Ptr) : Bool :=
  match h[p]? with
  | some n => nameMatches namespace_ name n.Name
  | none => false

/-- The fields of the node at `p` that are neither `Children` nor `Parent`. -/
def payload (h : Store) (p : Ptr) : Option (Nat × xml.Name × List Attr × String × String) :=
  match h[p]? with
  | some n => some (n.Type_, n.Name, n.Attributes, n.Value, n.Target)
  | none => none

/-- Concatenation of the lists `f v` for the `v` of a list, when all of them are
defined. -/
def visits_range (f : Ptr → Option (List Ptr)) : List Ptr → Option (List Ptr)
  | [] => some []
  | v :: rest =>
    match f v, visits_range f rest with
    | some l, some ls => some (l ++ ls)
    | _, _ => none

/-- The nodes of the subtree of `x` in the order in which a walk along the child
pointers enters them, each as often as it is entered. -/
def walk (h : Store) : Nat → Ptr → Option (List Ptr)
  | 0, _ => none
  | fuel + 1, x =>
    match h[x]? with
    | none => none
    | some n =>
      match visits_range (fun v => walk h fuel v) n.Children with
      | some ls => some (x :: ls)
      | none => none

/-- The nodes that the loop of `rec_SelectNode` enters: those of the calls made
until one returns a node. -/
def rec_SelectNode_visits_range (f : Ptr → Option (Option Ptr))
    (g : Ptr → Option (List Ptr)) : List Ptr → Option (List Ptr)
  | [] => some []
  | v :: rest =>
    match f v, g v with
    | some (some _), some l => some l
    | some none, some l =>
      match rec_SelectNode_visits_range f g rest with
      | some ls => some (l ++ ls)
      | none => none
    | _, _ => none

/-- The nodes on which `rec_SelectNode` is called during the call on `cn`, in the
order of the calls. -/
def rec_SelectNode_visits (h : Store) : Nat → Ptr → String → String → Option (List Ptr)
  | 0, _, _, _ => none
  | fuel + 1, cn, namespace_, name =>
    match h[cn]? with
    | none => none
    | some node =>
      if (namespace_ == "*" || node.Name.Space == namespace_) && node.Name.Local == name then
        some [cn]
      else
        match rec_SelectNode_visits_range (fun v => rec_SelectNode h fuel v namespace_ name)
            (fun v => rec_SelectNode_visits h fuel v namespace_ name) node.Children with
        | some ls => some (cn :: ls)
        | none => none

/-- The nodes on which `rec_SelectNodes` is called during the call on `cn`, in the
order of the calls. -/
def rec_SelectNodes_visits (h : Store) : Nat → Ptr → String → String → Option (List Ptr)
  | 0, _, _, _ => none
  | fuel + 1, cn, namespace_, name =>
    match h[cn]? with
    | none => none
    | some node =>
      if (namespace_ == "*" || node.Name.Space == namespace_) && node.Name.Local == name then
        some [cn]
      else
        match visits_range (fun v => rec_SelectNodes_visits h fuel v namespace_ name)
            node.Children with
        | some ls => some (cn :: ls)
        | none => none

/-- The nodes on which `String` is called during the call on `this`, in the order
of the calls. -/
def String__visits (h : Store) : Nat → Ptr → Option (List Ptr)
  | 0, _ => none
  | fuel + 1, this =>
    match h[this]? with
    | none => none
    | some n =>
      if n.Type_ = NT_PROCINST ∨ n.Type_ = NT_COMMENT ∨ n.Type_ = NT_DIRECTIVE then
        some [this]
      else if n.Type_ = NT_ELEMENT then
        if n.Children.length = 0 ∧ n.Value = "" then some [this]
        else
          match visits_range (fun v => String__visits h fuel v) n.Children with
          | some ls => some (this :: ls)
          | none => none
      else if n.Type_ = NT_ROOT then
        match visits_range (fun v => String__visits h fuel v) n.Children with
        | some ls => some (this :: ls)
        | none => none
      else some [this]

/-! ### Example stores -/

/-- The store after `NewNode` and then `AddChild` of the node to itself. -/
def selfChild : Store :=
  AddChild (NewNode [] NT_ROOT).1 0 0

/-- Two nodes that are each the child of the other: `AddChild(0, 1)`, then
`AddChild(1, 0)`. -/
def twoCycle : Store :=
  AddChild (AddChild (NewNode (NewNode [] NT_ELEMENT).1 NT_ELEMENT).1 0 1) 1 0

/-- The node 0 with the children 1 and 2, and the node 2 with the child 3. -/
def smallTree : Store :=
  AddChild (AddChild (AddChild
    (NewNode (NewNode (NewNode (NewNode [] NT_ROOT).1 NT_ELEMENT).1 NT_ELEMENT).1
      NT_COMMENT).1 0 1) 0 2) 2 3

/-- A node that is its own child beside a tree: `AddChild(0, 0)` on the root 0, and
the root 1 with the child 2. -/
def cycleAside : Store :=
  AddChild (AddChild (NewNode (NewNode (NewNode [] NT_ROOT).1 NT_ROOT).1 NT_ELEMENT).1 0 0) 1 2

end store

end xmlx

/-! ## Facts about the conversions of `strconv` -/

namespace strconv

theorem Btoui64_loop_EINVAL (b cutoff : Nat) (l : List Char) :
    ∀ n, (Btoui64_loop b cutoff l n).2 = some os.Error.EINVAL
      → (Btoui64_loop b cutoff l n).1 = 0 := by
  induction l with
  | nil => intro n h; simp [Btoui64_loop] at h
  | cons d rest ih =>
    intro n
    simp only [Btoui64_loop]
    split
    · intro _; rfl
    · split
      · intro _; rfl
      · split
        · intro h; simp at h
        · split
          · intro h; simp at h
          · exact ih _

theorem Atoui64_EINVAL (s : String) (h : (Atoui64 s).2 = some os.Error.EINVAL) :
    (Atoui64 s).1 = 0 := by
  revert h
  simp only [Atoui64, Btoui64]
  split
  · intro _; rfl
  · split
    · exact Btoui64_loop_EINVAL _ _ _ _
    · intro h; simp at h

theorem Btoui64_EINVAL (s : String) (b : Nat) (h : (Btoui64 s b).2 = some os.Error.EINVAL) :
    (Btoui64 s b).1 = 0 := by
  revert h
  simp only [Btoui64]
  split
  · intro _; rfl
  · split
    · exact Btoui64_loop_EINVAL _ _ _ _
    · intro h; simp at h

theorem Atoi64_EINVAL (s : String) (h : (Atoi64 s).2 = some os.Error.EINVAL) :
    (Atoi64 s).1 = 0 := by
  revert h
  simp only [Atoi64, Btoi64]
  split
  · intro _; rfl
  · generalize (Btoui64 _ 10) = r
    intro h
    split_ifs at h ⊢ <;> first | rfl | (simp at h)

theorem Atoui_EINVAL (IntSize : Nat) (s : String)
    (h : (Atoui IntSize s).2 = some os.Error.EINVAL) : (Atoui IntSize s).1 = 0 := by
  revert h
  simp only [Atoui]
  split
  · intro _; rfl
  · split
    · intro h; simp at h
    · intro h; simp at h

theorem Atoi_EINVAL (IntSize : Nat) (s : String)
    (h : (Atoi IntSize s).2 = some os.Error.EINVAL) : (Atoi IntSize s).1 = 0 := by
  revert h
  simp only [Atoi]
  split
  · intro _; rfl
  · split
    · split
      · intro h; simp at h
      · intro h; simp at h
    · intro h; simp at h

end strconv

namespace xmlx

/-! ## Induction over trees -/

/-- Structural induction over a tree: a property holds of every node as soon as it
holds of a node whenever it holds of all of its children. -/
theorem Node.induct {P : Node → Prop}
    (step : ∀ ty nm cs as v tg, (∀ c ∈ cs, P c) → P (Node.mk ty nm cs as v tg)) :
    ∀ n, P n := by
  intro n
  refine @Node.rec P (fun l => ∀ c ∈ l, P c) ?_ ?_ ?_ n
  · intro ty nm cs as v tg ih
    exact step ty nm cs as v tg ih
  · intro c hc
    cases hc
  · intro hd tl ihd itl c hc
    rcases List.mem_cons.mp hc with h | h
    · exact h ▸ ihd
    · exact itl c h

/-- String comparison `==` is symmetric. -/
theorem string_beq_comm (a b : String) : (a == b) = (b == a) := by
  rw [Bool.eq_iff_iff]
  simp only [beq_iff_eq]
  exact eq_comm

theorem rec_SelectNode_range_eq_find (namespace_ name : String) (cs : List Node)
    (ih : ∀ c ∈ cs, rec_SelectNode c namespace_ name
      = c.preorder.find? (fun n => nameMatches namespace_ name n.Name)) :
    rec_SelectNode_range cs namespace_ name
      = (preorderList cs).find? (fun n => nameMatches namespace_ name n.Name) := by
  induction cs with
  | nil => simp [rec_SelectNode_range, preorderList]
  | cons c cs ihcs =>
    have hc := ih c (List.mem_cons_self c cs)
    have hcs := ihcs (fun d hd => ih d (List.mem_cons_of_mem c hd))
    simp only [rec_SelectNode_range, preorderList, List.find?_append, hc, hcs]
    cases List.find? (fun n => nameMatches namespace_ name n.Name) c.preorder <;> rfl

theorem rec_SelectNode_eq_find (namespace_ name : String) (n : Node) :
    rec_SelectNode n namespace_ name
      = n.preorder.find? (fun n => nameMatches namespace_ name n.Name) := by
  induction n using Node.induct with
  | step ty nm cs as v tg ih =>
    simp only [rec_SelectNode, Node.preorder, List.find?_cons, nameMatches, Node.Name]
    rw [string_beq_comm nm.Space namespace_, string_beq_comm nm.Local name]
    cases hm : ((namespace_ == "*" || namespace_ == nm.Space) && name == nm.Local)
    · simp only [Bool.false_eq_true, if_false]
      exact rec_SelectNode_range_eq_find namespace_ name cs ih
    · simp

theorem matches_mk (ty : Nat) (nm : xml.Name) (cs : List Node) (as : List Attr) (v tg : String)
    (namespace_ name : String) :
    ((namespace_ == "*" || nm.Space == namespace_) && nm.Local == name)
      = (Node.mk ty nm cs as v tg).matches namespace_ name := by
  simp only [Node.matches, nameMatches, Node.Name]
  rw [string_beq_comm nm.Space namespace_, string_beq_comm nm.Local name]

theorem rec_SelectNodes_range_acc (namespace_ name : String) (cs : List Node)
    (ih : ∀ c ∈ cs, ∀ l, rec_SelectNodes c namespace_ name l
      = l ++ rec_SelectNodes c namespace_ name []) :
    ∀ l, rec_SelectNodes_range cs namespace_ name l
      = l ++ rec_SelectNodes_range cs namespace_ name [] := by
  induction cs with
  | nil => intro l; simp [rec_SelectNodes_range]
  | cons c cs ihcs =>
    intro l
    have hc := ih c (List.mem_cons_self c cs)
    have hcs := ihcs (fun d hd => ih d (List.mem_cons_of_mem c hd))
    simp only [rec_SelectNodes_range]
    rw [hcs (rec_SelectNodes c namespace_ name l), hcs (rec_SelectNodes c namespace_ name []),
      hc l, List.append_assoc]

theorem rec_SelectNodes_acc (namespace_ name : String) (n : Node) :
    ∀ l, rec_SelectNodes n namespace_ name l = l ++ rec_SelectNodes n namespace_ name [] := by
  induction n using Node.induct with
  | step ty nm cs as v tg ih =>
    intro l
    simp only [rec_SelectNodes]
    split
    · simp
    · exact rec_SelectNodes_range_acc namespace_ name cs ih l

theorem rec_SelectNodes_range_cons (namespace_ name : String) (c : Node) (cs : List Node) :
    rec_SelectNodes_range (c :: cs) namespace_ name []
      = rec_SelectNodes c namespace_ name [] ++ rec_SelectNodes_range cs namespace_ name [] := by
  simp only [rec_SelectNodes_range]
  exact rec_SelectNodes_range_acc namespace_ name cs
    (fun d _ => rec_SelectNodes_acc namespace_ name d) _

theorem at?_cons (n : Node) (i : Nat) (q : List Nat) :
    n.at? (i :: q) = match n.Children[i]? with
      | some c => c.at? q
      | none => none := by
  cases n; rfl

theorem properAncestors_nil : properAncestors [] = [] := by
  simp [properAncestors]

theorem properAncestors_cons (i : Nat) (q : List Nat) :
    properAncestors (i :: q) = [] :: (properAncestors q).map (fun p => i :: p) := by
  simp only [properAncestors, List.inits_cons]
  have hne : List.map (fun t => i :: t) q.inits ≠ [] := by
    cases q <;> simp
  rw [List.dropLast_cons_of_ne_nil hne, List.map_dropLast]

theorem topMatch_nil (n : Node) (namespace_ name : String) :
    n.topMatch namespace_ name [] = n.matches namespace_ name := by
  cases n
  simp [Node.topMatch, Node.matchesAt, Node.at?, properAncestors_nil]

theorem matchesAt_nil (n : Node) (namespace_ name : String) :
    n.matchesAt namespace_ name [] = n.matches namespace_ name := by
  cases n
  simp [Node.matchesAt, Node.at?]

theorem matchesAt_cons (n c : Node) (namespace_ name : String) (i : Nat) (q : List Nat)
    (hc : n.Children[i]? = some c) :
    n.matchesAt namespace_ name (i :: q) = c.matchesAt namespace_ name q := by
  simp only [Node.matchesAt, at?_cons, hc]

theorem topMatch_cons_of_matches (n : Node) (namespace_ name : String) (i : Nat) (q : List Nat)
    (hm : n.matches namespace_ name = true) :
    n.topMatch namespace_ name (i :: q) = false := by
  simp only [Node.topMatch, properAncestors_cons, List.all_cons, matchesAt_nil, hm]
  simp

theorem topMatch_cons_of_child (n c : Node) (namespace_ name : String) (i : Nat) (q : List Nat)
    (hm : n.matches namespace_ name = false) (hc : n.Children[i]? = some c) :
    n.topMatch namespace_ name (i :: q) = c.topMatch namespace_ name q := by
  simp only [Node.topMatch, properAncestors_cons, List.all_cons, matchesAt_nil, hm,
    List.all_map, matchesAt_cons n c namespace_ name i _ hc]
  simp [Function.comp_def, matchesAt_cons n c namespace_ name i _ hc]


theorem positionsFrom_cons_form (cs : List Node) :
    ∀ (i : Nat) (p : List Nat), p ∈ positionsFrom i cs → ∃ j q, p = j :: q ∧ i ≤ j := by
  induction cs with
  | nil => intro i p hp; simp [positionsFrom] at hp
  | cons c cs ih =>
    intro i p hp
    simp only [positionsFrom, List.mem_append, List.mem_map] at hp
    rcases hp with ⟨q, _, rfl⟩ | hp
    · exact ⟨i, q, rfl, le_refl i⟩
    · obtain ⟨j, q, hq, hle⟩ := ih (i + 1) p hp
      exact ⟨j, q, hq, by omega⟩

theorem children_getElem?_of_split (n c : Node) (pre cs : List Node)
    (h : n.Children = pre ++ c :: cs) : n.Children[pre.length]? = some c := by
  rw [h, List.getElem?_append_right (le_refl _)]
  simp

theorem selected_range (namespace_ name : String) (n : Node)
    (hm : n.matches namespace_ name = false) (cs : List Node) :
    ∀ pre : List Node, n.Children = pre ++ cs →
      (∀ c ∈ cs, rec_SelectNodes c namespace_ name []
        = (c.positions.filter (c.topMatch namespace_ name)).filterMap c.at?) →
      rec_SelectNodes_range cs namespace_ name []
        = ((positionsFrom pre.length cs).filter (n.topMatch namespace_ name)).filterMap n.at? := by
  induction cs with
  | nil => intro pre _ _; simp [rec_SelectNodes_range, positionsFrom]
  | cons c cs ihcs =>
    intro pre hpre ih
    have hc : n.Children[pre.length]? = some c := children_getElem?_of_split n c pre cs hpre
    have htail := ihcs (pre ++ [c]) (by simpa using hpre)
      (fun d hd => ih d (List.mem_cons_of_mem c hd))
    have hf : (n.topMatch namespace_ name ∘ fun p => pre.length :: p)
        = c.topMatch namespace_ name := by
      funext q
      exact topMatch_cons_of_child n c namespace_ name pre.length q hm hc
    have hg : (n.at? ∘ fun p => pre.length :: p) = c.at? := by
      funext q
      simp only [Function.comp, at?_cons, hc]
    rw [rec_SelectNodes_range_cons, positionsFrom, List.filter_append, List.filterMap_append,
      List.filter_map, List.filterMap_map, hf, hg, ih c (List.mem_cons_self c cs), htail]
    simp

theorem rec_SelectNodes_eq_selected (namespace_ name : String) (n : Node) :
    rec_SelectNodes n namespace_ name []
      = (n.positions.filter (n.topMatch namespace_ name)).filterMap n.at? := by
  induction n using Node.induct with
  | step ty nm cs as v tg ih =>
    simp only [rec_SelectNodes, matches_mk ty nm cs as v tg, Node.positions]
    cases hm : (Node.mk ty nm cs as v tg).matches namespace_ name
    · have h0 : (Node.mk ty nm cs as v tg).topMatch namespace_ name [] = false := by
        rw [topMatch_nil, hm]
      have hr := selected_range namespace_ name (Node.mk ty nm cs as v tg) hm cs [] rfl ih
      simp only [List.length_nil] at hr
      simp [List.filter_cons, h0, hr]
    · have h0 : (Node.mk ty nm cs as v tg).topMatch namespace_ name [] = true := by
        rw [topMatch_nil, hm]
      have hrest : (positionsFrom 0 cs).filter
          ((Node.mk ty nm cs as v tg).topMatch namespace_ name) = [] := by
        rw [List.filter_eq_nil_iff]
        intro p hp
        obtain ⟨j, q, rfl, _⟩ := positionsFrom_cons_form cs 0 p hp
        rw [topMatch_cons_of_matches _ _ _ _ _ hm]
        simp
      simp [List.filter_cons, h0, hrest, Node.at?]

theorem mem_positionsFrom (cs : List Node)
    (ih : ∀ c ∈ cs, ∀ q, q ∈ c.positions ↔ (c.at? q).isSome = true) :
    ∀ (i j : Nat) (q : List Nat), (j :: q) ∈ positionsFrom i cs
      ↔ i ≤ j ∧ ∃ c, cs[j - i]? = some c ∧ (c.at? q).isSome = true := by
  induction cs with
  | nil => intro i j q; simp [positionsFrom]
  | cons c cs ihcs =>
    intro i j q
    have htail := ihcs (fun d hd => ih d (List.mem_cons_of_mem c hd)) (i + 1) j q
    simp only [positionsFrom, List.mem_append, List.mem_map, htail]
    constructor
    · rintro (⟨q', hq', heq⟩ | ⟨hle, d, hd, hq⟩)
      · injection heq with h1 h2
        subst h1; subst h2
        refine ⟨le_refl _, c, by simp, ?_⟩
        exact (ih c (List.mem_cons_self c cs) q').mp hq'
      · refine ⟨by omega, d, ?_, hq⟩
        have : j - i = (j - (i + 1)) + 1 := by omega
        rw [this]
        simpa using hd
    · rintro ⟨hle, d, hd, hq⟩
      by_cases hji : j = i
      · subst hji
        left
        simp only [Nat.sub_self, List.getElem?_cons_zero, Option.some.injEq] at hd
        subst hd
        exact ⟨q, (ih c (List.mem_cons_self c cs) q).mpr hq, rfl⟩
      · right
        refine ⟨by omega, d, ?_, hq⟩
        have : j - i = (j - (i + 1)) + 1 := by omega
        rw [this] at hd
        simpa using hd

theorem mem_positions_iff (n : Node) :
    ∀ p, p ∈ n.positions ↔ (n.at? p).isSome = true := by
  induction n using Node.induct with
  | step ty nm cs as v tg ih =>
    intro p
    cases p with
    | nil => simp [Node.positions, Node.at?]
    | cons j q =>
      simp only [Node.positions, List.mem_cons, mem_positionsFrom cs ih 0 j q, at?_cons,
        Node.Children]
      simp only [reduceCtorEq, false_or, Nat.zero_le, true_and, Nat.sub_zero]
      cases hj : cs[j]? with
      | none => simp
      | some c => simp


theorem positionsFrom_nodup (cs : List Node) (ih : ∀ c ∈ cs, c.positions.Nodup) :
    ∀ i : Nat, (positionsFrom i cs).Nodup := by
  induction cs with
  | nil => intro i; simp [positionsFrom]
  | cons c cs ihcs =>
    intro i
    simp only [positionsFrom]
    rw [List.nodup_append]
    refine ⟨?_, ihcs (fun d hd => ih d (List.mem_cons_of_mem c hd)) (i + 1), ?_⟩
    · exact (ih c (List.mem_cons_self c cs)).map (fun a b h => List.tail_eq_of_cons_eq h)
    · intro p hp1 hp2
      obtain ⟨q, _, rfl⟩ := List.mem_map.mp hp1
      obtain ⟨j, q', hq', hle⟩ := positionsFrom_cons_form cs (i + 1) _ hp2
      injection hq' with h1 _
      omega

theorem positions_nodup (n : Node) : n.positions.Nodup := by
  induction n using Node.induct with
  | step ty nm cs as v tg ih =>
    simp only [Node.positions, List.nodup_cons]
    refine ⟨?_, positionsFrom_nodup cs ih 0⟩
    intro hmem
    obtain ⟨j, q, hq, _⟩ := positionsFrom_cons_form cs 0 _ hmem
    cases hq

theorem preorderList_eq_positions (n : Node) (cs : List Node) :
    ∀ pre : List Node, n.Children = pre ++ cs →
      (∀ c ∈ cs, c.preorder = c.positions.filterMap c.at?) →
      preorderList cs = (positionsFrom pre.length cs).filterMap n.at? := by
  induction cs with
  | nil => intro pre _ _; simp [preorderList, positionsFrom]
  | cons c cs ihcs =>
    intro pre hpre ih
    have hc : n.Children[pre.length]? = some c := children_getElem?_of_split n c pre cs hpre
    have htail := ihcs (pre ++ [c]) (by simpa using hpre)
      (fun d hd => ih d (List.mem_cons_of_mem c hd))
    have hg : (n.at? ∘ fun p => pre.length :: p) = c.at? := by
      funext q
      simp only [Function.comp, at?_cons, hc]
    rw [preorderList, positionsFrom, List.filterMap_append, List.filterMap_map, hg,
      ih c (List.mem_cons_self c cs), htail]
    simp

theorem preorder_eq_positions (n : Node) :
    n.preorder = n.positions.filterMap n.at? := by
  induction n using Node.induct with
  | step ty nm cs as v tg ih =>
    have hr := preorderList_eq_positions (Node.mk ty nm cs as v tg) cs [] rfl ih
    simp only [List.length_nil] at hr
    simp [Node.preorder, Node.positions, Node.at?, hr]

theorem find?_filterMap_at (t : Node) (namespace_ name : String) (l : List (List Nat)) :
    (l.filterMap t.at?).find? (fun n => n.matches namespace_ name)
      = (l.find? (t.matchesAt namespace_ name)).bind t.at? := by
  induction l with
  | nil => rfl
  | cons p rest ih =>
    simp only [List.filterMap_cons, List.find?_cons, Node.matchesAt]
    cases hp : t.at? p with
    | none => simpa using ih
    | some n =>
      simp only [List.find?_cons]
      cases hm : n.matches namespace_ name
      · simpa using ih
      · simp [hp]

theorem rec_SelectNode_eq_first_position (t : Node) (namespace_ name : String) :
    rec_SelectNode t namespace_ name
      = (t.positions.find? (t.matchesAt namespace_ name)).bind t.at? := by
  rw [← find?_filterMap_at, ← preorder_eq_positions]
  exact rec_SelectNode_eq_find namespace_ name t

/-- C1: `SelectNode` returns the first node of the depth-first pre-order listing of the
receiver's subtree (receiver first, children left to right) that satisfies the match
predicate, and returns nil exactly when no node of the subtree satisfies it; the node
returned is the one at the first position, in pre-order, whose node matches. -/
theorem SelectNode_first_in_preorder (this : Node) (namespace_ name : String) :
    this.SelectNode namespace_ name
        = this.preorder.find? (fun n => n.matches namespace_ name)
      ∧ (this.SelectNode namespace_ name = none
          ↔ ∀ n ∈ this.preorder, n.matches namespace_ name = false)
      ∧ this.SelectNode namespace_ name
        = (this.positions.find? (this.matchesAt namespace_ name)).bind this.at? := by
  have h : rec_SelectNode this namespace_ name
      = this.preorder.find? (fun n => n.matches namespace_ name) :=
    rec_SelectNode_eq_find namespace_ name this
  refine ⟨h, ?_, rec_SelectNode_eq_first_position this namespace_ name⟩
  unfold Node.SelectNode
  rw [h, List.find?_eq_none]
  simp

/-- C2: `SelectNodes` returns the nodes at exactly those positions of the receiver's
subtree whose node satisfies the match predicate while no proper ancestor inside the
subtree does, in pre-order; the positions of the subtree are listed without repetition,
are exactly the paths that lead to a node, and list the nodes in pre-order, so every
such node is returned exactly once. -/
theorem SelectNodes_topmost_matches_in_preorder (this : Node) (namespace_ name : String) :
    this.SelectNodes namespace_ name
        = (this.positions.filter (this.topMatch namespace_ name)).filterMap this.at?
      ∧ this.positions.Nodup
      ∧ (∀ p, p ∈ this.positions ↔ (this.at? p).isSome = true)
      ∧ this.preorder = this.positions.filterMap this.at? :=
  ⟨rec_SelectNodes_eq_selected namespace_ name this, positions_nodup this,
    mem_positions_iff this, preorder_eq_positions this⟩

theorem rec_SelectNode_of_matches (n : Node) (namespace_ name : String)
    (hm : n.matches namespace_ name = true) : rec_SelectNode n namespace_ name = some n := by
  cases n with
  | mk ty nm cs as v tg =>
    simp only [rec_SelectNode, matches_mk ty nm cs as v tg, hm, if_true]

theorem rec_SelectNodes_of_matches (n : Node) (namespace_ name : String)
    (hm : n.matches namespace_ name = true) : rec_SelectNodes n namespace_ name [] = [n] := by
  cases n with
  | mk ty nm cs as v tg =>
    simp only [rec_SelectNodes, matches_mk ty nm cs as v tg, hm, if_true, List.nil_append]

theorem selected_positions_of_matches (n : Node) (namespace_ name : String)
    (hm : n.matches namespace_ name = true) :
    n.positions.filter (n.topMatch namespace_ name) = [[]] := by
  cases n with
  | mk ty nm cs as v tg =>
    have h0 : (Node.mk ty nm cs as v tg).topMatch namespace_ name [] = true := by
      rw [topMatch_nil, hm]
    have hrest : (positionsFrom 0 cs).filter
        ((Node.mk ty nm cs as v tg).topMatch namespace_ name) = [] := by
      rw [List.filter_eq_nil_iff]
      intro p hp
      obtain ⟨j, q, rfl, _⟩ := positionsFrom_cons_form cs 0 p hp
      rw [topMatch_cons_of_matches _ _ _ _ _ hm]
      simp
    simp [Node.positions, List.filter_cons, h0, hrest]

theorem sizeOf_lt_of_mem_preorderList (cs : List Node)
    (ih : ∀ c ∈ cs, ∀ d ∈ c.preorder, sizeOf d ≤ sizeOf c) :
    ∀ d ∈ preorderList cs, sizeOf d < sizeOf cs := by
  induction cs with
  | nil => intro d hd; simp [preorderList] at hd
  | cons c cs ihcs =>
    intro d hd
    simp only [preorderList, List.mem_append] at hd
    simp only [List.cons.sizeOf_spec]
    rcases hd with h | h
    · have := ih c (List.mem_cons_self c cs) d h
      omega
    · have := ihcs (fun e he => ih e (List.mem_cons_of_mem c he)) d h
      omega

theorem sizeOf_le_of_mem_preorder (n : Node) : ∀ d ∈ n.preorder, sizeOf d ≤ sizeOf n := by
  induction n using Node.induct with
  | step ty nm cs as v tg ih =>
    intro d hd
    simp only [Node.preorder, List.mem_cons] at hd
    rcases hd with h | h
    · rw [h]
    · have := sizeOf_lt_of_mem_preorderList cs ih d h
      simp only [Node.mk.sizeOf_spec]
      omega

theorem ne_of_mem_descendants (n d : Node) (hd : d ∈ n.descendants) : d ≠ n := by
  cases n with
  | mk ty nm cs as v tg =>
    simp only [Node.descendants, Node.Children] at hd
    have h := sizeOf_lt_of_mem_preorderList cs
      (fun c _ => sizeOf_le_of_mem_preorder c) d hd
    intro heq
    rw [heq] at h
    simp only [Node.mk.sizeOf_spec] at h
    omega

theorem matches_wildcard (n : Node) (name : String) :
    n.matches "*" name = (name == n.Name.Local) := by
  simp [Node.matches, nameMatches]

/-- C3 (shadowing): for a node `e` with local name "foo" that has a proper descendant
`d` also named "foo", `SelectNode("*","foo")` on `e` returns `e` itself and
`SelectNodes("*","foo")` returns the one-element list `[e]`, the only selected
position being the receiver's own; the nested `d` is returned by neither. -/
theorem shadowing_outer_foo_only (e d : Node) (he : e.Name.Local = "foo")
    (hd : d ∈ e.descendants) (_hdn : d.Name.Local = "foo") :
    e.SelectNode "*" "foo" = some e
      ∧ e.SelectNodes "*" "foo" = [e]
      ∧ e.positions.filter (e.topMatch "*" "foo") = [[]]
      ∧ e.SelectNode "*" "foo" ≠ some d
      ∧ d ∉ e.SelectNodes "*" "foo" := by
  have hm : e.matches "*" "foo" = true := by
    rw [matches_wildcard, he]; rfl
  have hne := ne_of_mem_descendants e d hd
  have h1 : e.SelectNode "*" "foo" = some e := rec_SelectNode_of_matches e "*" "foo" hm
  have h2 : e.SelectNodes "*" "foo" = [e] := rec_SelectNodes_of_matches e "*" "foo" hm
  refine ⟨h1, h2, selected_positions_of_matches e "*" "foo" hm, ?_, ?_⟩
  · rw [h1]
    intro h
    exact hne (Option.some.inj h).symm
  · rw [h2]
    simpa using hne

/-- Witness of C3: the element "foo" of `nestedFoo` holds, two levels down, another "foo";
both searches answer with the outer one only. -/
theorem shadowing_outer_foo_only_witness :
    (nestedFoo.Name.Local = "foo" ∧ innerFoo ∈ nestedFoo.descendants
        ∧ innerFoo.Name.Local = "foo")
      ∧ nestedFoo.SelectNode "*" "foo" = some nestedFoo
      ∧ nestedFoo.SelectNodes "*" "foo" = [nestedFoo]
      ∧ nestedFoo.positions.filter (nestedFoo.topMatch "*" "foo") = [[]]
      ∧ nestedFoo.SelectNode "*" "foo" ≠ some innerFoo
      ∧ innerFoo ∉ nestedFoo.SelectNodes "*" "foo" :=
  have h1 : nestedFoo.Name.Local = "foo" := rfl
  have h2 : innerFoo ∈ nestedFoo.descendants := by
    simp [nestedFoo, innerFoo, Node.descendants, Node.Children, preorderList, Node.preorder]
  have h3 : innerFoo.Name.Local = "foo" := rfl
  ⟨⟨h1, h2, h3⟩, shadowing_outer_foo_only nestedFoo innerFoo h1 h2 h3⟩

theorem matches_of_ne_wildcard (n : Node) (namespace_ name : String) (hns : namespace_ ≠ "*") :
    n.matches namespace_ name = true ↔ (n.Name.Space = namespace_ ∧ n.Name.Local = name) := by
  simp only [Node.matches, nameMatches, Bool.and_eq_true, Bool.or_eq_true, beq_iff_eq]
  constructor
  · rintro ⟨h1 | h1, h2⟩
    · exact absurd h1 hns
    · exact ⟨h1.symm, h2.symm⟩
  · rintro ⟨h1, h2⟩
    exact ⟨Or.inr h1.symm, h2.symm⟩

theorem matches_of_rec_SelectNode (t m : Node) (namespace_ name : String)
    (h : rec_SelectNode t namespace_ name = some m) : m.matches namespace_ name = true := by
  rw [rec_SelectNode_eq_find] at h
  have h2 := List.find?_some h
  exact h2

theorem matches_of_mem_rec_SelectNodes (t m : Node) (namespace_ name : String)
    (h : m ∈ rec_SelectNodes t namespace_ name []) : m.matches namespace_ name = true := by
  rw [rec_SelectNodes_eq_selected, List.mem_filterMap] at h
  obtain ⟨p, hp, hat⟩ := h
  have htop := (List.mem_filter.mp hp).2
  simp only [Node.topMatch, Bool.and_eq_true, Node.matchesAt, hat] at htop
  exact htop.1

theorem mem_rec_SelectNodes_of_topMatch (t n : Node) (namespace_ name : String) (p : List Nat)
    (hat : t.at? p = some n) (htop : t.topMatch namespace_ name p = true) :
    n ∈ rec_SelectNodes t namespace_ name [] := by
  rw [rec_SelectNodes_eq_selected, List.mem_filterMap]
  refine ⟨p, List.mem_filter.mpr ⟨?_, htop⟩, hat⟩
  rw [mem_positions_iff, hat]
  rfl

/-- C4 (wildcard namespace): a node `n` with local name `x`, whatever its namespace,
satisfies the predicate for `("*", x)`, is returned by `SelectNode("*", x)` called on
it, is the one result of `SelectNodes("*", x)` called on it, and is among the results
of `SelectNodes("*", x)` called on any tree `t` that holds it at a position none of
whose proper ancestors matches.  For a namespace argument `ns` other than "*", a node
satisfies the predicate exactly when its namespace is `ns` and its local name is `x`,
and every node returned by `SelectNode(ns, x)` or `SelectNodes(ns, x)` is such a
node. -/
theorem wildcard_namespace_match (n t : Node) (x ns : String) (p : List Nat)
    (hx : n.Name.Local = x) (hat : t.at? p = some n)
    (hanc : ∀ q ∈ properAncestors p, t.matchesAt "*" x q = false) (hns : ns ≠ "*") :
    (n.matches "*" x = true
        ∧ n.SelectNode "*" x = some n
        ∧ n.SelectNodes "*" x = [n]
        ∧ n ∈ t.SelectNodes "*" x)
      ∧ (∀ (y : String) (m : Node),
          m.matches ns y = true ↔ (m.Name.Space = ns ∧ m.Name.Local = y))
      ∧ (∀ (u : Node) (y : String) (m : Node),
          u.SelectNode ns y = some m → m.Name.Space = ns ∧ m.Name.Local = y)
      ∧ (∀ (u : Node) (y : String), ∀ m ∈ u.SelectNodes ns y,
          m.Name.Space = ns ∧ m.Name.Local = y) := by
  have hm : n.matches "*" x = true := by
    rw [matches_wildcard, hx]; simp
  refine ⟨⟨hm, rec_SelectNode_of_matches n "*" x hm, rec_SelectNodes_of_matches n "*" x hm, ?_⟩,
    fun y m => matches_of_ne_wildcard m ns y hns, ?_, ?_⟩
  · refine mem_rec_SelectNodes_of_topMatch t n "*" x p hat ?_
    simp only [Node.topMatch, Bool.and_eq_true, List.all_eq_true, Bool.not_eq_true']
    refine ⟨?_, hanc⟩
    simp only [Node.matchesAt, hat, hm]
  · intro u y m h
    exact (matches_of_ne_wildcard m ns y hns).mp (matches_of_rec_SelectNode u m ns y h)
  · intro u y m h
    exact (matches_of_ne_wildcard m ns y hns).mp (matches_of_mem_rec_SelectNodes u m ns y h)

/-- Witness of C4: `plainX`, an "x" without namespace sitting below a "y" of
`mixedNamespaces`, is found with the wildcard, and the search for ("ns", "x") returns
only nodes of namespace "ns" and local name "x". -/
theorem wildcard_namespace_match_witness :
    (plainX.Name.Local = "x" ∧ mixedNamespaces.at? [1, 0] = some plainX
        ∧ (∀ q ∈ properAncestors [1, 0], mixedNamespaces.matchesAt "*" "x" q = false)
        ∧ "ns" ≠ "*")
      ∧ plainX ∈ mixedNamespaces.SelectNodes "*" "x"
      ∧ (∀ m ∈ mixedNamespaces.SelectNodes "ns" "x",
          m.Name.Space = "ns" ∧ m.Name.Local = "x") :=
  have h1 : plainX.Name.Local = "x" := rfl
  have h2 : mixedNamespaces.at? [1, 0] = some plainX := rfl
  have h3 : ∀ q ∈ properAncestors [1, 0], mixedNamespaces.matchesAt "*" "x" q = false := by
    intro q hq
    simp only [properAncestors, List.inits, List.dropLast, List.mem_cons, List.mem_singleton,
      List.not_mem_nil, or_false] at hq
    rcases hq with rfl | rfl <;> rfl
  have h4 : "ns" ≠ "*" := by decide
  have h := wildcard_namespace_match plainX mixedNamespaces "x" "ns" [1, 0] h1 h2 h3 h4
  ⟨⟨h1, h2, h3, h4⟩, h.1.2.2.2, h.2.2.2 mixedNamespaces "x"⟩

theorem HasAttr_range_false_As_range (as : List Attr) (namespace_ name : String)
    (h : HasAttr_range as namespace_ name = false) : As_range as namespace_ name = "" := by
  induction as with
  | nil => rfl
  | cons a rest ih =>
    simp only [HasAttr_range] at h
    simp only [As_range]
    split at h
    · simp at h
    · rename_i hc
      rw [if_neg hc]
      exact ih h

theorem As_of_not_HasAttr (this : Node) (namespace_ name : String)
    (h : this.HasAttr namespace_ name = false) : this.As namespace_ name = "" :=
  HasAttr_range_false_As_range this.Attributes namespace_ name h

/-- C5, as amended: each integer accessor returns 0 when no node (no attribute)
matches, and when the matched text is empty or is rejected by the `strconv`
conversion as malformed (error `EINVAL`, as for "abc"). -/
theorem integer_accessors_zero_when_absent_or_malformed (IntSize : Nat) (this : Node)
    (namespace_ name : String) :
    ((this.SelectNode namespace_ name = none
        ∨ ∃ node, this.SelectNode namespace_ name = some node
            ∧ (node.Value = "" ∨ (strconv.Atoi IntSize node.Value).2 = some os.Error.EINVAL))
        → this.I IntSize namespace_ name = 0)
      ∧ ((this.SelectNode namespace_ name = none
        ∨ ∃ node, this.SelectNode namespace_ name = some node
            ∧ (node.Value = "" ∨ (strconv.Atoi64 node.Value).2 = some os.Error.EINVAL))
        → this.I64 namespace_ name = 0)
      ∧ ((this.SelectNode namespace_ name = none
        ∨ ∃ node, this.SelectNode namespace_ name = some node
            ∧ (node.Value = "" ∨ (strconv.Atoui IntSize node.Value).2 = some os.Error.EINVAL))
        → this.U IntSize namespace_ name = 0)
      ∧ ((this.SelectNode namespace_ name = none
        ∨ ∃ node, this.SelectNode namespace_ name = some node
            ∧ (node.Value = "" ∨ (strconv.Atoui64 node.Value).2 = some os.Error.EINVAL))
        → this.U64 namespace_ name = 0)
      ∧ ((this.HasAttr namespace_ name = false ∨ this.As namespace_ name = ""
          ∨ (strconv.Atoi IntSize (this.As namespace_ name)).2 = some os.Error.EINVAL)
        → this.Ai IntSize namespace_ name = 0)
      ∧ ((this.HasAttr namespace_ name = false ∨ this.As namespace_ name = ""
          ∨ (strconv.Atoi64 (this.As namespace_ name)).2 = some os.Error.EINVAL)
        → this.Ai64 namespace_ name = 0)
      ∧ ((this.HasAttr namespace_ name = false ∨ this.As namespace_ name = ""
          ∨ (strconv.Atoui IntSize (this.As namespace_ name)).2 = some os.Error.EINVAL)
        → this.Au IntSize namespace_ name = 0)
      ∧ ((this.HasAttr namespace_ name = false ∨ this.As namespace_ name = ""
          ∨ (strconv.Atoui64 (this.As namespace_ name)).2 = some os.Error.EINVAL)
        → this.Au64 namespace_ name = 0) := by
  refine ⟨?_, ?_, ?_, ?_, ?_, ?_, ?_, ?_⟩
  · rintro (h | ⟨node, h, hv | hv⟩) <;> simp only [Node.SelectNode] at h <;>
      simp only [Node.I, h]
    · simp [hv]
    · split
      · exact strconv.Atoi_EINVAL IntSize _ hv
      · rfl
  · rintro (h | ⟨node, h, hv | hv⟩) <;> simp only [Node.SelectNode] at h <;>
      simp only [Node.I64, h]
    · simp [hv]
    · split
      · exact strconv.Atoi64_EINVAL _ hv
      · rfl
  · rintro (h | ⟨node, h, hv | hv⟩) <;> simp only [Node.SelectNode] at h <;>
      simp only [Node.U, h]
    · simp [hv]
    · split
      · exact strconv.Atoui_EINVAL IntSize _ hv
      · rfl
  · rintro (h | ⟨node, h, hv | hv⟩) <;> simp only [Node.SelectNode] at h <;>
      simp only [Node.U64, h]
    · simp [hv]
    · split
      · exact strconv.Atoui64_EINVAL _ hv
      · rfl
  · rintro (h | h | h)
    · simp [Node.Ai, As_of_not_HasAttr this namespace_ name h]
    · simp [Node.Ai, h]
    · simp only [Node.Ai]
      split
      · exact strconv.Atoi_EINVAL IntSize _ h
      · rfl
  · rintro (h | h | h)
    · simp [Node.Ai64, As_of_not_HasAttr this namespace_ name h]
    · simp [Node.Ai64, h]
    · simp only [Node.Ai64]
      split
      · exact strconv.Atoi64_EINVAL _ h
      · rfl
  · rintro (h | h | h)
    · simp [Node.Au, As_of_not_HasAttr this namespace_ name h]
    · simp [Node.Au, h]
    · simp only [Node.Au]
      split
      · exact strconv.Atoui_EINVAL IntSize _ h
      · rfl
  · rintro (h | h | h)
    · simp [Node.Au64, As_of_not_HasAttr this namespace_ name h]
    · simp [Node.Au64, h]
    · simp only [Node.Au64]
      split
      · exact strconv.Atoui64_EINVAL _ h
      · rfl

/-- C5, counterexample: on `hugeCount` the node and the attribute "count" are found,
`strconv` reports an error (`ERANGE`) for their text, and the accessors return the
extreme value of their type, not 0. -/
theorem integer_accessors_range_error_not_zero :
    hugeCount.SelectNode "*" "count" = some hugeCount
      ∧ hugeCount.HasAttr "*" "count" = true
      ∧ hugeCount.Value = "99999999999999999999"
      ∧ hugeCount.As "*" "count" = "99999999999999999999"
      ∧ (strconv.Atoi64 "99999999999999999999").2 = some os.Error.ERANGE
      ∧ (strconv.Atoui64 "99999999999999999999").2 = some os.Error.ERANGE
      ∧ (strconv.Atoi 32 "99999999999999999999").2 = some os.Error.ERANGE
      ∧ (strconv.Atoui 32 "99999999999999999999").2 = some os.Error.ERANGE
      ∧ hugeCount.I64 "*" "count" = 9223372036854775807
      ∧ hugeCount.U64 "*" "count" = 18446744073709551615
      ∧ hugeCount.I 32 "*" "count" = 2147483647
      ∧ hugeCount.U 32 "*" "count" = 4294967295
      ∧ hugeCount.Ai64 "*" "count" = 9223372036854775807
      ∧ hugeCount.Au64 "*" "count" = 18446744073709551615
      ∧ hugeCount.Ai 32 "*" "count" = 2147483647
      ∧ hugeCount.Au 32 "*" "count" = 4294967295
      ∧ hugeCount.I64 "*" "count" ≠ 0 := by
  refine ⟨rfl, rfl, rfl, rfl, ?_, ?_, ?_, ?_, ?_, ?_, ?_, ?_, ?_, ?_, ?_, ?_, ?_⟩ <;> decide

/-- Witness of C5 as amended: on `abcCount` no node and no attribute is called "total",
and the node and the attribute "count" carry the text "abc", which `strconv` rejects
with `EINVAL`; every integer accessor answers 0. -/
theorem integer_accessors_zero_when_absent_or_malformed_witness :
    (abcCount.SelectNode "*" "total" = none ∧ abcCount.HasAttr "*" "total" = false
        ∧ (∃ node, abcCount.SelectNode "*" "count" = some node
            ∧ node.Value = "abc" ∧ (strconv.Atoi 32 "abc").2 = some os.Error.EINVAL)
        ∧ abcCount.As "*" "count" = "abc")
      ∧ abcCount.I 32 "*" "total" = 0
      ∧ abcCount.Ai 32 "*" "total" = 0
      ∧ abcCount.I 32 "*" "count" = 0
      ∧ abcCount.I64 "*" "count" = 0
      ∧ abcCount.U 32 "*" "count" = 0
      ∧ abcCount.U64 "*" "count" = 0
      ∧ abcCount.Ai 32 "*" "count" = 0
      ∧ abcCount.Ai64 "*" "count" = 0
      ∧ abcCount.Au 32 "*" "count" = 0
      ∧ abcCount.Au64 "*" "count" = 0 :=
  have hnone : abcCount.SelectNode "*" "total" = none := rfl
  have hattr : abcCount.HasAttr "*" "total" = false := rfl
  have hsome : abcCount.SelectNode "*" "count"
      = some (Node.mk NT_ELEMENT ⟨"", "count"⟩ [] [] "abc" "") := rfl
  have hT := integer_accessors_zero_when_absent_or_malformed 32 abcCount "*" "total"
  have hC := integer_accessors_zero_when_absent_or_malformed 32 abcCount "*" "count"
  ⟨⟨hnone, hattr, ⟨_, hsome, rfl, by decide⟩, rfl⟩,
    hT.1 (Or.inl hnone),
    hT.2.2.2.2.1 (Or.inl hattr),
    hC.1 (Or.inr ⟨_, hsome, Or.inr (by decide)⟩),
    hC.2.1 (Or.inr ⟨_, hsome, Or.inr (by decide)⟩),
    hC.2.2.1 (Or.inr ⟨_, hsome, Or.inr (by decide)⟩),
    hC.2.2.2.1 (Or.inr ⟨_, hsome, Or.inr (by decide)⟩),
    hC.2.2.2.2.1 (Or.inr (Or.inr (by decide))),
    hC.2.2.2.2.2.1 (Or.inr (Or.inr (by decide))),
    hC.2.2.2.2.2.2.1 (Or.inr (Or.inr (by decide))),
    hC.2.2.2.2.2.2.2 (Or.inr (Or.inr (by decide)))⟩

/-! ### The string accessor -/

/-- C6: `S` is the `Value` of the node `SelectNode` returns, and "" when it returns
nil; that node is the first match of the pre-order listing, so a receiver that
matches answers with its own `Value`, and the `Value` of the first match is the
answer whatever it is (the empty string included) and whatever matches follow. -/
theorem S_is_value_of_first_match (this : Node) (namespace_ name : String) :
    (this.S namespace_ name
        = match this.SelectNode namespace_ name with
          | some node => node.Value
          | none => "")
      ∧ (this.S namespace_ name
        = match this.preorder.find? (fun n => n.matches namespace_ name) with
          | some node => node.Value
          | none => "")
      ∧ (this.matches namespace_ name = true → this.S namespace_ name = this.Value)
      ∧ (∀ (first : Node) (before after : List Node),
          this.preorder = before ++ first :: after →
          (∀ n ∈ before, n.matches namespace_ name = false) →
          first.matches namespace_ name = true →
          this.S namespace_ name = first.Value) := by
  have hfind : rec_SelectNode this namespace_ name
      = this.preorder.find? (fun n => n.matches namespace_ name) :=
    rec_SelectNode_eq_find namespace_ name this
  refine ⟨rfl, ?_, ?_, ?_⟩
  · unfold Node.S
    rw [hfind]
  · intro hm
    simp only [Node.S, rec_SelectNode_of_matches this namespace_ name hm]
  · intro first before after hsplit hbefore hfirst
    have : this.preorder.find? (fun n => n.matches namespace_ name) = some first := by
      rw [hsplit, List.find?_append, List.find?_eq_none.mpr (by simpa using hbefore)]
      simp [List.find?_cons, hfirst]
    simp only [Node.S, hfind, this]

/-- Witness of C6: in `twoNotes` the first "note" in pre-order has an empty text and the
second the text "later"; `S` answers with the empty text of the first, and with the
receiver's own text when the receiver is the match. -/
theorem S_is_value_of_first_match_witness :
    (twoNotes.preorder = [twoNotes] ++ Node.mk NT_ELEMENT ⟨"", "note"⟩ [] [] "" ""
          :: [Node.mk NT_ELEMENT ⟨"", "note"⟩ [] [] "later" ""]
        ∧ (∀ n ∈ [twoNotes], n.matches "*" "note" = false)
        ∧ (Node.mk NT_ELEMENT ⟨"", "note"⟩ [] [] "" "").matches "*" "note" = true
        ∧ twoNotes.matches "*" "doc" = true)
      ∧ twoNotes.S "*" "note" = ""
      ∧ twoNotes.S "*" "doc" = "text" :=
  have h1 : twoNotes.preorder = [twoNotes] ++ Node.mk NT_ELEMENT ⟨"", "note"⟩ [] [] "" ""
      :: [Node.mk NT_ELEMENT ⟨"", "note"⟩ [] [] "later" ""] := rfl
  have h2 : ∀ n ∈ [twoNotes], n.matches "*" "note" = false := by
    intro n hn
    rw [List.mem_singleton.mp hn]
    rfl
  have h3 : (Node.mk NT_ELEMENT ⟨"", "note"⟩ [] [] "" "").matches "*" "note" = true := rfl
  have h4 : twoNotes.matches "*" "doc" = true := rfl
  ⟨⟨h1, h2, h3, h4⟩,
    (S_is_value_of_first_match twoNotes "*" "note").2.2.2 _ _ _ h1 h2 h3,
    (S_is_value_of_first_match twoNotes "*" "doc").2.2.1 h4⟩

/-! ### Attribute accessors -/

theorem As_range_eq_find (as : List Attr) (namespace_ name : String) :
    As_range as namespace_ name
      = match as.find? (fun a => nameMatches namespace_ name a.Name) with
        | some a => a.Value
        | none => "" := by
  induction as with
  | nil => rfl
  | cons a rest ih =>
    simp only [As_range, List.find?_cons, nameMatches]
    cases ((namespace_ == "*" || namespace_ == a.Name.Space) && name == a.Name.Local)
    · simpa [nameMatches] using ih
    · simp

/-- C7: `As` returns the `Value` of the first attribute, in the order of the
receiver's own attribute sequence, whose name satisfies the match predicate, and ""
when there is none; it is a function of the receiver's `Attributes` alone: two nodes
with the same attribute sequence give the same answer, whatever their children, name,
value or place in a tree. -/
theorem As_first_matching_attribute (this : Node) (namespace_ name : String) :
    (this.As namespace_ name
        = match this.Attributes.find? (fun a => nameMatches namespace_ name a.Name) with
          | some a => a.Value
          | none => "")
      ∧ (∀ other : Node, other.Attributes = this.Attributes →
          other.As namespace_ name = this.As namespace_ name) := by
  refine ⟨As_range_eq_find this.Attributes namespace_ name, ?_⟩
  intro other h
  simp only [Node.As, h]

/-- Witness of C7: a comment node without children carrying the attribute sequence of
`attrsNode` gives the same answer as `attrsNode`; the attribute "only" of the child of
`attrsNode` is not seen, and the first match in sequence order wins. -/
theorem As_first_matching_attribute_witness :
    ((Node.mk NT_COMMENT ⟨"", ""⟩ [] [⟨⟨"a", "id"⟩, "first"⟩, ⟨⟨"b", "id"⟩, "second"⟩]
          "" "").Attributes = attrsNode.Attributes)
      ∧ (Node.mk NT_COMMENT ⟨"", ""⟩ [] [⟨⟨"a", "id"⟩, "first"⟩, ⟨⟨"b", "id"⟩, "second"⟩]
          "" "").As "*" "only" = attrsNode.As "*" "only"
      ∧ attrsNode.As "*" "id" = "first"
      ∧ attrsNode.As "b" "id" = "second"
      ∧ attrsNode.As "*" "only" = "" :=
  ⟨rfl, (As_first_matching_attribute attrsNode "*" "only").2 _ rfl, rfl, rfl, rfl⟩

theorem HasAttr_range_iff (as : List Attr) (namespace_ name : String) :
    HasAttr_range as namespace_ name = true
      ↔ ∃ a ∈ as, nameMatches namespace_ name a.Name = true := by
  induction as with
  | nil => simp [HasAttr_range]
  | cons a rest ih =>
    simp only [HasAttr_range, List.mem_cons, exists_eq_or_imp]
    by_cases hc : ((namespace_ == "*" || namespace_ == a.Name.Space) && name == a.Name.Local) = true
    · simp [hc, nameMatches]
    · rw [if_neg hc, ih]
      have : nameMatches namespace_ name a.Name = false := by
        simpa [nameMatches] using hc
      simp [this]

theorem HasAttr_range_names (as bs : List Attr) (namespace_ name : String)
    (h : as.map Attr.Name = bs.map Attr.Name) :
    HasAttr_range as namespace_ name = HasAttr_range bs namespace_ name := by
  induction as generalizing bs with
  | nil =>
    cases bs with
    | nil => rfl
    | cons b bs => simp at h
  | cons a rest ih =>
    cases bs with
    | nil => simp at h
    | cons b bs =>
      simp only [List.map_cons, List.cons.injEq] at h
      simp only [HasAttr_range, h.1, ih bs h.2]

/-- C8: `HasAttr` is true exactly when some attribute of the receiver's own attribute
sequence has a name satisfying the match predicate; the attribute values play no
part: nodes whose attribute sequences carry the same names in the same order give the
same answer. -/
theorem HasAttr_iff_some_attribute_matches (this : Node) (namespace_ name : String) :
    (this.HasAttr namespace_ name = true
        ↔ ∃ a ∈ this.Attributes, nameMatches namespace_ name a.Name = true)
      ∧ (∀ other : Node,
          other.Attributes.map Attr.Name = this.Attributes.map Attr.Name →
          other.HasAttr namespace_ name = this.HasAttr namespace_ name) := by
  refine ⟨HasAttr_range_iff this.Attributes namespace_ name, ?_⟩
  intro other h
  exact HasAttr_range_names other.Attributes this.Attributes namespace_ name h

/-- Witness of C8: a node whose attributes have the names of those of `attrsNode` but an
empty and an unparseable value gives the same answer as `attrsNode`. -/
theorem HasAttr_iff_some_attribute_matches_witness :
    ((Node.mk NT_ELEMENT ⟨"", "m"⟩ [] [⟨⟨"a", "id"⟩, ""⟩, ⟨⟨"b", "id"⟩, "<&>"⟩]
          "" "").Attributes.map Attr.Name = attrsNode.Attributes.map Attr.Name)
      ∧ (Node.mk NT_ELEMENT ⟨"", "m"⟩ [] [⟨⟨"a", "id"⟩, ""⟩, ⟨⟨"b", "id"⟩, "<&>"⟩]
          "" "").HasAttr "b" "id" = attrsNode.HasAttr "b" "id"
      ∧ attrsNode.HasAttr "b" "id" = true
      ∧ attrsNode.HasAttr "*" "only" = false :=
  ⟨rfl, (HasAttr_iff_some_attribute_matches attrsNode "b" "id").2 _ rfl, rfl, rfl⟩

/-- C9: on a node without an attribute matching `(namespace, name)`, that is with
`HasAttr` false, every attribute accessor returns the zero value of its type: `As`
the empty string, `Ai`, `Ai64`, `Au`, `Au64` the number 0, `Af32` and `Af64` the
float zero, `Ab` false; whatever the size of `int` and whatever the float and bool
conversions of `strconv` would compute. -/
theorem attribute_accessors_zero_without_attribute {F32 F64 : Type} [Zero F32] [Zero F64]
    (IntSize : Nat) (Atof32 : String → F32 × Option os.Error)
    (Atof64 : String → F64 × Option os.Error) (Atob : String → Bool × Option os.Error)
    (this : Node) (namespace_ name : String) (h : this.HasAttr namespace_ name = false) :
    this.As namespace_ name = ""
      ∧ this.Ai IntSize namespace_ name = 0
      ∧ this.Ai64 namespace_ name = 0
      ∧ this.Au IntSize namespace_ name = 0
      ∧ this.Au64 namespace_ name = 0
      ∧ this.Af32 Atof32 namespace_ name = 0
      ∧ this.Af64 Atof64 namespace_ name = 0
      ∧ this.Ab Atob namespace_ name = false := by
  have hs := As_of_not_HasAttr this namespace_ name h
  refine ⟨hs, ?_, ?_, ?_, ?_, ?_, ?_, ?_⟩
  · simp [Node.Ai, hs]
  · simp [Node.Ai64, hs]
  · simp [Node.Au, hs]
  · simp [Node.Au64, hs]
  · simp [Node.Af32, hs]
  · simp [Node.Af64, hs]
  · simp [Node.Ab, hs]

/-- Witness of C9: `attrsNode` has no attribute "weight"; every attribute accessor
answers with the zero value, also with conversions that would never answer zero. -/
theorem attribute_accessors_zero_without_attribute_witness :
    attrsNode.HasAttr "*" "weight" = false
      ∧ attrsNode.As "*" "weight" = ""
      ∧ attrsNode.Ai 32 "*" "weight" = 0
      ∧ attrsNode.Ai64 "*" "weight" = 0
      ∧ attrsNode.Au 32 "*" "weight" = 0
      ∧ attrsNode.Au64 "*" "weight" = 0
      ∧ attrsNode.Af32 (fun _ => ((1 : ℚ), none)) "*" "weight" = 0
      ∧ attrsNode.Af64 (fun _ => ((1 : ℚ), none)) "*" "weight" = 0
      ∧ attrsNode.Ab (fun _ => (true, none)) "*" "weight" = false :=
  ⟨rfl, attribute_accessors_zero_without_attribute 32 (fun _ => ((1 : ℚ), none))
    (fun _ => ((1 : ℚ), none)) (fun _ => (true, none)) attrsNode "*" "weight" rfl⟩

theorem concat_nil : concat [] = "" := rfl

theorem concat_cons (x : String) (l : List String) : concat (x :: l) = x ++ concat l := rfl

theorem attrText_eq (v : Attr) :
    attrText v = if v.Name.Space ≠ "" then
        " " ++ v.Name.Space ++ ":" ++ v.Name.Local ++ "=\"" ++ v.Value ++ "\""
      else " " ++ v.Name.Local ++ "=\"" ++ v.Value ++ "\"" := by
  unfold attrText qname
  split <;> simp [String.append_assoc]

theorem printElement_attrs_eq (as : List Attr) :
    ∀ b : String, printElement_attrs as b = b ++ concat (as.map attrText) := by
  induction as with
  | nil => intro b; simp [printElement_attrs, concat_nil]
  | cons v rest ih =>
    intro b
    simp only [printElement_attrs, List.map_cons, concat_cons, attrText_eq v]
    split <;> rw [ih] <;> simp [String.append_assoc]

theorem printElement_range_eq (cs : List Node) :
    ∀ b : String, printElement_range cs b = b ++ concat (cs.map Node.String_) := by
  induction cs with
  | nil => intro b; simp [printElement_range, concat_nil]
  | cons v rest ih =>
    intro b
    rw [printElement_range, ih, List.map_cons, concat_cons, String.append_assoc]

theorem String__element (nm : xml.Name) (cs : List Node) (as : List Attr) (v tg : String) :
    (Node.mk NT_ELEMENT nm cs as v tg).String_
      = Node.printElement (Node.mk NT_ELEMENT nm cs as v tg) := by
  rw [Node.String_, Node.Bytes]
  simp [NT_ELEMENT, NT_PROCINST, NT_COMMENT, NT_DIRECTIVE]

/-- C10: an Element node with at least one child or a non-empty `Value` renders to
the open tag `<` qname attributes `>`, the renderings of its children in order, its
`Value`, and the closing tag `</` qname `>`; each attribute is a space, its qname,
`="`, its value and `"`; the attribute values and the `Value` are copied verbatim. -/
theorem String__element_with_content (this : Node) (hty : this.Type_ = NT_ELEMENT)
    (hcontent : this.Children ≠ [] ∨ this.Value ≠ "") :
    this.String_
      = "<" ++ qname this.Name ++ concat (this.Attributes.map attrText) ++ ">"
          ++ concat (this.Children.map Node.String_) ++ this.Value
          ++ "</" ++ qname this.Name ++ ">" := by
  cases this with
  | mk ty nm cs as v tg =>
    simp only [Node.Type_] at hty
    subst hty
    simp only [Node.Children, Node.Value, Node.Name, Node.Attributes] at hcontent ⊢
    have hne : ¬ (cs.length = 0 ∧ v = "") := by
      rintro ⟨h1, h2⟩
      rcases hcontent with h | h
      · exact h (List.length_eq_zero.mp h1)
      · exact h h2
    rw [String__element, Node.printElement]
    simp only [if_neg hne, printElement_attrs_eq, printElement_range_eq, qname]
    split <;> simp [String.append_assoc]

/-- Witness of C10: the element `item` with `id="7"` and the text "hi" renders to
`<item id="7">hi</item>`, and markup characters in an attribute value and in the text
of `rawNode` are written as they are. -/
theorem String__element_with_content_witness :
    (itemNode.Type_ = NT_ELEMENT ∧ (itemNode.Children ≠ [] ∨ itemNode.Value ≠ ""))
      ∧ (rawNode.Type_ = NT_ELEMENT ∧ (rawNode.Children ≠ [] ∨ rawNode.Value ≠ ""))
      ∧ itemNode.String_ = "<item id=\"7\">hi</item>"
      ∧ rawNode.String_ = "<ns:t x:a=\"<\"&>\"><item id=\"7\">hi</item>a<b&c>\"d\"</ns:t>" :=
  have h1 : itemNode.Type_ = NT_ELEMENT := rfl
  have h2 : itemNode.Children ≠ [] ∨ itemNode.Value ≠ "" := Or.inr (by decide)
  have h3 : rawNode.Type_ = NT_ELEMENT := rfl
  have h4 : rawNode.Children ≠ [] ∨ rawNode.Value ≠ "" := Or.inr (by decide)
  have hitem : itemNode.String_ = "<item id=\"7\">hi</item>" :=
    (String__element_with_content itemNode h1 h2).trans rfl
  have hraw : rawNode.String_
      = "<ns:t x:a=\"<\"&>\"><item id=\"7\">hi</item>a<b&c>\"d\"</ns:t>" := by
    rw [String__element_with_content rawNode h3 h4]
    simp only [rawNode, Node.Children, List.map_cons, List.map_nil, hitem]
    rfl
  ⟨⟨h1, h2⟩, ⟨h3, h4⟩, hitem, hraw⟩

theorem string_append_left_cancel (a b c : String) (h : a ++ b = a ++ c) : b = c := by
  have h2 := congrArg String.data h
  simp only [String.data_append] at h2
  exact String.ext (List.append_cancel_left h2)

theorem printElement_eq (ty : Nat) (nm : xml.Name) (cs : List Node) (as : List Attr)
    (v tg : String) :
    Node.printElement (Node.mk ty nm cs as v tg)
      = if cs.length = 0 ∧ v = "" then
          "<" ++ qname nm ++ concat (as.map attrText) ++ " />"
        else
          "<" ++ qname nm ++ concat (as.map attrText) ++ (">"
            ++ concat (cs.map Node.String_) ++ v ++ "</" ++ qname nm ++ ">") := by
  rw [Node.printElement]
  simp only [printElement_attrs_eq, printElement_range_eq, qname]
  split <;> split <;> simp [String.append_assoc]

/-- C11: an Element node renders to the self-closing form `<` qname attributes ` />`
exactly when it has no child and an empty `Value`; the element "name" without
namespace, attributes, children and text renders to `<name />`. -/
theorem String__element_self_closing_iff (this : Node) (hty : this.Type_ = NT_ELEMENT) :
    (this.String_ = "<" ++ qname this.Name ++ concat (this.Attributes.map attrText) ++ " />"
        ↔ (this.Children = [] ∧ this.Value = ""))
      ∧ (Node.mk NT_ELEMENT ⟨"", "name"⟩ [] [] "" "").String_ = "<name />" := by
  constructor
  · cases this with
    | mk ty nm cs as v tg =>
      simp only [Node.Type_] at hty
      subst hty
      simp only [Node.Children, Node.Value, Node.Name, Node.Attributes]
      rw [String__element, printElement_eq]
      rw [← List.length_eq_zero]
      constructor
      · intro h
        by_contra hne
        rw [if_neg hne] at h
        have h2 := string_append_left_cancel _ _ _ h
        have h3 := congrArg String.data h2
        simp only [String.data_append] at h3
        exact absurd h3 (by simp)
      · intro h
        rw [if_pos h]
  · rw [String__element, printElement_eq]
    rfl

/-- Witness of C11: `nameNode` has no child and no text and renders to `<name />`. -/
theorem String__element_self_closing_iff_witness :
    (nameNode.Type_ = NT_ELEMENT ∧ nameNode.Children = [] ∧ nameNode.Value = "")
      ∧ nameNode.String_ = "<name />" :=
  ⟨⟨rfl, rfl, rfl⟩,
    ((String__element_self_closing_iff nameNode rfl).1.mpr ⟨rfl, rfl⟩).trans rfl⟩

theorem printRoot_range_eq (cs : List Node) :
    ∀ b : String, printRoot_range cs b = b ++ concat (cs.map Node.String_) := by
  induction cs with
  | nil => intro b; simp [printRoot_range, concat_nil]
  | cons v rest ih =>
    intro b
    rw [printRoot_range, ih, List.map_cons, concat_cons, String.append_assoc]

theorem String__root_mk (nm : xml.Name) (cs : List Node) (as : List Attr) (v tg : String) :
    (Node.mk NT_ROOT nm cs as v tg).String_ = concat (cs.map Node.String_) := by
  rw [Node.String_, Node.Bytes]
  simp only [NT_ROOT, NT_ELEMENT, NT_PROCINST, NT_COMMENT, NT_DIRECTIVE]
  simp only [Nat.reduceEqDiff, if_false, if_true, OfNat.zero_ne_ofNat]
  rw [Node.printRoot, printRoot_range_eq]
  simp

/-- C12: a Root node renders to the concatenation of the renderings of its children
in child order and to nothing else; its own `Name`, `Attributes`, `Value` and `Target`
play no part, and a Root without children renders to the empty string. -/
theorem String__root_concatenates_children (this : Node) (hty : this.Type_ = NT_ROOT) :
    this.String_ = concat (this.Children.map Node.String_)
      ∧ (∀ (nm : xml.Name) (as : List Attr) (v tg : String),
          (Node.mk NT_ROOT nm this.Children as v tg).String_ = this.String_)
      ∧ (this.Children = [] → this.String_ = "") := by
  cases this with
  | mk ty nm cs as v tg =>
    simp only [Node.Type_] at hty
    subst hty
    simp only [Node.Children]
    refine ⟨String__root_mk nm cs as v tg, ?_, ?_⟩
    · intro nm2 as2 v2 tg2
      rw [String__root_mk, String__root_mk]
    · intro h
      rw [String__root_mk, h]
      rfl

/-- Witness of C12: `rootNode` renders to the renderings of its two children, and a
Root without children to the empty string. -/
theorem String__root_concatenates_children_witness :
    (rootNode.Type_ = NT_ROOT
        ∧ (Node.mk NT_ROOT ⟨"", "x"⟩ [] [⟨⟨"", "id"⟩, "7"⟩] "v" "t").Type_ = NT_ROOT
        ∧ (Node.mk NT_ROOT ⟨"", "x"⟩ [] [⟨⟨"", "id"⟩, "7"⟩] "v" "t").Children = [])
      ∧ rootNode.String_ = concat (rootNode.Children.map Node.String_)
      ∧ (Node.mk NT_ROOT ⟨"", "x"⟩ [] [⟨⟨"", "id"⟩, "7"⟩] "v" "t").String_ = "" :=
  ⟨⟨rfl, rfl, rfl⟩, (String__root_concatenates_children rootNode rfl).1,
    (String__root_concatenates_children (Node.mk NT_ROOT ⟨"", "x"⟩ [] [⟨⟨"", "id"⟩, "7"⟩] "v" "t") rfl).2.2 rfl⟩

/-- C13: a node of a leaf kind renders to the template of its kind, whatever its
`Name`, `Attributes` and `Children`: a ProcessingInstruction to `<?` Target, a space,
Value `?>`, a Comment to `<!-- ` Value ` -->`, a Directive to `<!` Value `!>`. -/
theorem String__leaf_kinds (this : Node) :
    (this.Type_ = NT_PROCINST
        → this.String_ = "<?" ++ this.Target ++ " " ++ this.Value ++ "?>")
      ∧ (this.Type_ = NT_COMMENT → this.String_ = "<!-- " ++ this.Value ++ " -->")
      ∧ (this.Type_ = NT_DIRECTIVE → this.String_ = "<!" ++ this.Value ++ "!>") := by
  cases this with
  | mk ty nm cs as v tg =>
    simp only [Node.Type_, Node.Target, Node.Value]
    refine ⟨?_, ?_, ?_⟩ <;> intro hty <;> subst hty <;> rw [Node.String_, Node.Bytes] <;>
      simp [NT_PROCINST, NT_COMMENT, NT_DIRECTIVE, Node.printProcInst, Node.printComment,
        Node.printDirective, Node.Target, Node.Value]

/-- Witness of C13: three leaf nodes that carry a name, an attribute and a child
render to their templates only. -/
theorem String__leaf_kinds_witness :
    (procNode.Type_ = NT_PROCINST ∧ commentNode.Type_ = NT_COMMENT
        ∧ directiveNode.Type_ = NT_DIRECTIVE)
      ∧ procNode.String_ = "<?xml version=\"1.0\"?>"
      ∧ commentNode.String_ = "<!-- note -->"
      ∧ directiveNode.String_ = "<!DOCTYPE html!>" :=
  ⟨⟨rfl, rfl, rfl⟩,
    ((String__leaf_kinds procNode).1 rfl).trans rfl,
    ((String__leaf_kinds commentNode).2.1 rfl).trans rfl,
    ((String__leaf_kinds directiveNode).2.2 rfl).trans rfl⟩

theorem rec_SelectNode_range_eq_head? (namespace_ name : String) (cs : List Node)
    (ih : ∀ c ∈ cs, rec_SelectNode c namespace_ name
      = (rec_SelectNodes c namespace_ name []).head?) :
    rec_SelectNode_range cs namespace_ name
      = (rec_SelectNodes_range cs namespace_ name []).head? := by
  induction cs with
  | nil => rfl
  | cons c cs ihcs =>
    have hc := ih c (List.mem_cons_self c cs)
    have hcs := ihcs (fun d hd => ih d (List.mem_cons_of_mem c hd))
    rw [rec_SelectNodes_range_cons, rec_SelectNode_range, hc, hcs]
    cases rec_SelectNodes c namespace_ name [] with
    | nil => rfl
    | cons x xs => rfl

theorem rec_SelectNode_eq_head? (namespace_ name : String) (n : Node) :
    rec_SelectNode n namespace_ name = (rec_SelectNodes n namespace_ name []).head? := by
  induction n using Node.induct with
  | step ty nm cs as v tg ih =>
    simp only [rec_SelectNode, rec_SelectNodes]
    split
    · rfl
    · exact rec_SelectNode_range_eq_head? namespace_ name cs ih

/-- C19: `SelectNode` is the head of `SelectNodes`: its result is the first element
of the list `SelectNodes` returns, and it is nil exactly when that list is empty,
which happens exactly when no node of the receiver's subtree satisfies the match
predicate. -/
theorem SelectNode_is_head_of_SelectNodes (this : Node) (namespace_ name : String) :
    this.SelectNode namespace_ name = (this.SelectNodes namespace_ name).head?
      ∧ (this.SelectNode namespace_ name = none ↔ this.SelectNodes namespace_ name = [])
      ∧ (this.SelectNodes namespace_ name = []
          ↔ ∀ n ∈ this.preorder, n.matches namespace_ name = false) := by
  have hhead : this.SelectNode namespace_ name = (this.SelectNodes namespace_ name).head? :=
    rec_SelectNode_eq_head? namespace_ name this
  have hnil : this.SelectNode namespace_ name = none ↔ this.SelectNodes namespace_ name = [] := by
    rw [hhead]
    cases this.SelectNodes namespace_ name <;> simp
  have hfind : this.SelectNode namespace_ name
      = this.preorder.find? (fun n => n.matches namespace_ name) :=
    rec_SelectNode_eq_find namespace_ name this
  refine ⟨hhead, hnil, ?_⟩
  rw [← hnil, hfind, List.find?_eq_none]
  simp

/-! ## Mutable trees: `AddChild` and `RemoveChild` -/

namespace store

theorem lookup_none (h : Store) (p : Ptr) (hp : ¬ p < h.length) : h[p]? = none :=
  List.getElem?_eq_none (Nat.le_of_not_lt hp)

theorem allocated_of_lookup (h : Store) (p : Ptr) (n : Node) (hp : h[p]? = some n) :
    p < h.length := by
  by_contra hge
  rw [lookup_none h p hge] at hp
  cases hp

theorem length_setChildren (h : Store) (p : Ptr) (cs : List Ptr) :
    (setChildren h p cs).length = h.length := by
  unfold setChildren
  split <;> simp

theorem length_setParent (h : Store) (p : Ptr) (q : Option Ptr) :
    (setParent h p q).length = h.length := by
  unfold setParent
  split <;> simp

theorem children_of_not_allocated (h : Store) (p : Ptr) (hp : ¬ p < h.length) :
    children h p = [] := by
  unfold children
  rw [lookup_none h p hp]

theorem parent_of_not_allocated (h : Store) (p : Ptr) (hp : ¬ p < h.length) :
    parent h p = none := by
  unfold parent
  rw [lookup_none h p hp]

theorem allocated_of_mem_children (h : Store) (p c : Ptr) (hc : c ∈ children h p) :
    p < h.length := by
  by_contra hp
  rw [children_of_not_allocated h p hp] at hc
  cases hc

theorem children_setChildren (h : Store) (p : Ptr) (cs : List Ptr) (q : Ptr) :
    children (setChildren h p cs) q
      = if q = p ∧ p < h.length then cs else children h q := by
  unfold setChildren
  cases hp : h[p]? with
  | none =>
    have : ¬ p < h.length := by
      intro hlt
      rw [List.getElem?_eq_getElem hlt] at hp
      cases hp
    simp [this]
  | some n =>
    have hlt : p < h.length := allocated_of_lookup h p n hp
    simp only [children, List.getElem?_set]
    by_cases hq : q = p
    · subst hq
      simp [hlt]
    · have hq2 : ¬ p = q := fun e => hq e.symm
      simp [hq, hq2]

theorem parent_setChildren (h : Store) (p : Ptr) (cs : List Ptr) (q : Ptr) :
    parent (setChildren h p cs) q = parent h q := by
  unfold setChildren
  cases hp : h[p]? with
  | none => rfl
  | some n =>
    simp only [parent, List.getElem?_set]
    by_cases hq : p = q
    · subst hq
      have hlt : p < h.length := allocated_of_lookup h p n hp
      simp [hlt, hp]
    · simp [hq]

theorem payload_setChildren (h : Store) (p : Ptr) (cs : List Ptr) (q : Ptr) :
    payload (setChildren h p cs) q = payload h q := by
  unfold setChildren
  cases hp : h[p]? with
  | none => rfl
  | some n =>
    simp only [payload, List.getElem?_set]
    by_cases hq : p = q
    · subst hq
      have hlt : p < h.length := allocated_of_lookup h p n hp
      simp [hlt, hp]
    · simp [hq]

theorem parent_setParent (h : Store) (p : Ptr) (x : Option Ptr) (q : Ptr) :
    parent (setParent h p x) q
      = if q = p ∧ p < h.length then x else parent h q := by
  unfold setParent
  cases hp : h[p]? with
  | none =>
    have : ¬ p < h.length := by
      intro hlt
      rw [List.getElem?_eq_getElem hlt] at hp
      cases hp
    simp [this]
  | some n =>
    have hlt : p < h.length := allocated_of_lookup h p n hp
    simp only [parent, List.getElem?_set]
    by_cases hq : q = p
    · subst hq
      simp [hlt]
    · have hq2 : ¬ p = q := fun e => hq e.symm
      simp [hq, hq2]

theorem children_setParent (h : Store) (p : Ptr) (x : Option Ptr) (q : Ptr) :
    children (setParent h p x) q = children h q := by
  unfold setParent
  cases hp : h[p]? with
  | none => rfl
  | some n =>
    simp only [children, List.getElem?_set]
    by_cases hq : p = q
    · subst hq
      have hlt : p < h.length := allocated_of_lookup h p n hp
      simp [hlt, hp]
    · simp [hq]

theorem payload_setParent (h : Store) (p : Ptr) (x : Option Ptr) (q : Ptr) :
    payload (setParent h p x) q = payload h q := by
  unfold setParent
  cases hp : h[p]? with
  | none => rfl
  | some n =>
    simp only [payload, List.getElem?_set]
    by_cases hq : p = q
    · subst hq
      have hlt : p < h.length := allocated_of_lookup h p n hp
      simp [hlt, hp]
    · simp [hq]

theorem RemoveChild_range_none (t : Ptr) (cs : List Ptr) :
    ∀ i, RemoveChild_range t cs i = none ↔ t ∉ cs := by
  induction cs with
  | nil => intro i; simp [RemoveChild_range]
  | cons v rest ih =>
    intro i
    simp only [RemoveChild_range, List.mem_cons, not_or]
    by_cases hv : v = t
    · simp [hv]
    · rw [if_neg hv, ih]
      constructor
      · intro h
        exact ⟨fun e => hv e.symm, h⟩
      · intro h
        exact h.2

theorem RemoveChild_range_some (t : Ptr) (cs : List Ptr) :
    ∀ i p, RemoveChild_range t cs i = some p →
      i ≤ p ∧ cs.take (p - i) ++ cs.drop (p - i + 1) = cs.erase t := by
  induction cs with
  | nil => intro i p h; simp [RemoveChild_range] at h
  | cons v rest ih =>
    intro i p h
    simp only [RemoveChild_range] at h
    by_cases hv : v = t
    · rw [if_pos hv] at h
      injection h with h
      subst h
      subst hv
      simp
    · rw [if_neg hv] at h
      obtain ⟨hle, heq⟩ := ih (i + 1) p h
      refine ⟨by omega, ?_⟩
      have hpi : p - i = (p - (i + 1)) + 1 := by omega
      rw [hpi, List.take_succ_cons, List.drop_succ_cons, List.erase_cons_tail (by simpa using hv)]
      simp only [List.cons_append, List.cons.injEq, true_and]
      exact heq

/-- What `RemoveChild` does: nothing when `t` is not among the children of `this`,
and otherwise the first occurrence of `t` is erased and the parent of `t` is nil. -/
theorem RemoveChild_eq (h : Store) (this t : Ptr) :
    RemoveChild h this t
      = if t ∈ children h this then
          setParent (setChildren h this ((children h this).erase t)) t none
        else h := by
  unfold RemoveChild
  cases hr : RemoveChild_range t (children h this) 0 with
  | none =>
    have := (RemoveChild_range_none t (children h this) 0).mp hr
    simp [this]
  | some p =>
    have hmem : t ∈ children h this := by
      by_contra hn
      rw [(RemoveChild_range_none t (children h this) 0).mpr hn] at hr
      cases hr
    obtain ⟨_, heq⟩ := RemoveChild_range_some t (children h this) 0 p hr
    simp only [Nat.sub_zero] at heq
    simp only [hmem, if_true, heq]

theorem length_RemoveChild (h : Store) (this t : Ptr) :
    (RemoveChild h this t).length = h.length := by
  rw [RemoveChild_eq]
  split
  · rw [length_setParent, length_setChildren]
  · rfl

theorem children_RemoveChild (h : Store) (this t q : Ptr) :
    children (RemoveChild h this t) q
      = if q = this then (children h this).erase t else children h q := by
  rw [RemoveChild_eq]
  by_cases hmem : t ∈ children h this
  · have hlt := allocated_of_mem_children h this t hmem
    rw [if_pos hmem, children_setParent, children_setChildren]
    by_cases hq : q = this
    · simp [hq, hlt]
    · simp [hq]
  · rw [if_neg hmem]
    by_cases hq : q = this
    · rw [if_pos hq, hq, List.erase_of_not_mem hmem]
    · rw [if_neg hq]

theorem parent_RemoveChild (h : Store) (this t q : Ptr) :
    parent (RemoveChild h this t) q
      = if q = t ∧ t ∈ children h this then none else parent h q := by
  rw [RemoveChild_eq]
  by_cases hmem : t ∈ children h this
  · rw [if_pos hmem, parent_setParent, parent_setChildren, length_setChildren]
    by_cases hq : q = t
    · subst hq
      by_cases hlt : q < h.length
      · simp [hlt, hmem]
      · simp [hlt, hmem, parent_of_not_allocated h q hlt]
    · simp [hq]
  · rw [if_neg hmem]
    simp [hmem]

theorem payload_RemoveChild (h : Store) (this t q : Ptr) :
    payload (RemoveChild h this t) q = payload h q := by
  rw [RemoveChild_eq]
  split
  · rw [payload_setParent, payload_setChildren]
  · rfl

theorem length_detach (h : Store) (t : Ptr) : (detach h t).length = h.length := by
  unfold detach
  split
  · exact length_RemoveChild _ _ _
  · rfl

theorem payload_detach (h : Store) (t q : Ptr) : payload (detach h t) q = payload h q := by
  unfold detach
  split
  · exact payload_RemoveChild _ _ _ _
  · rfl

theorem AddChild_eq (h : Store) (this t : Ptr) :
    AddChild h this t
      = setChildren (setParent (detach h t) t (some this)) this
          (children (detach h t) this ++ [t]) := by
  unfold AddChild detach
  simp only [children_setParent]

theorem length_AddChild (h : Store) (this t : Ptr) :
    (AddChild h this t).length = h.length := by
  rw [AddChild_eq, length_setChildren, length_setParent, length_detach]

theorem children_AddChild (h : Store) (this t q : Ptr) :
    children (AddChild h this t) q
      = if q = this ∧ this < h.length then children (detach h t) this ++ [t]
        else children (detach h t) q := by
  rw [AddChild_eq, children_setChildren, length_setParent, length_detach, children_setParent]

theorem parent_AddChild (h : Store) (this t q : Ptr) :
    parent (AddChild h this t) q
      = if q = t ∧ t < h.length then some this else parent (detach h t) q := by
  rw [AddChild_eq, parent_setChildren, parent_setParent, length_detach]

theorem payload_AddChild (h : Store) (this t q : Ptr) :
    payload (AddChild h this t) q = payload h q := by
  rw [AddChild_eq, payload_setChildren, payload_setParent, payload_detach]

theorem children_detach (h : Store) (t q : Ptr) :
    children (detach h t) q
      = if parent h t = some q then (children h q).erase t else children h q := by
  unfold detach
  cases hp : parent h t with
  | none => simp
  | some p2 =>
    simp only [children_RemoveChild, Option.some.injEq]
    by_cases hq : q = p2
    · subst hq
      simp
    · have : ¬ p2 = q := fun e => hq e.symm
      simp [hq, this]

theorem parent_detach (h : Store) (t q : Ptr) :
    parent (detach h t) q
      = if q = t ∧ (∃ p2, parent h t = some p2 ∧ t ∈ children h p2) then none
        else parent h q := by
  unfold detach
  cases hp : parent h t with
  | none => simp
  | some p2 =>
    simp only [parent_RemoveChild, Option.some.injEq, exists_eq_left']

/-- C15: `RemoveChild(p, c)` for a `c` that does not occur among the children of `p`
returns the store as it was: no field of any node changes. -/
theorem RemoveChild_of_not_child (h : Store) (p c : Ptr) (hc : c ∉ children h p) :
    RemoveChild h p c = h := by
  rw [RemoveChild_eq, if_neg hc]

/-- Witness of C15: in `smallTree` the node 3 is a child of 2, not of 0; removing it
from 0 changes nothing, its parent stays 2. -/
theorem RemoveChild_of_not_child_witness :
    (3 ∉ children smallTree 0 ∧ parent smallTree 3 = some 2)
      ∧ RemoveChild smallTree 0 3 = smallTree :=
  ⟨⟨by decide, rfl⟩, RemoveChild_of_not_child smallTree 0 3 (by decide)⟩

theorem lookup_setChildren_ne (h : Store) (p : Ptr) (cs : List Ptr) (q : Ptr) (hq : q ≠ p) :
    (setChildren h p cs)[q]? = h[q]? := by
  unfold setChildren
  split
  · rw [List.getElem?_set_ne (fun e => hq e.symm)]
  · rfl

theorem lookup_setParent_ne (h : Store) (p : Ptr) (x : Option Ptr) (q : Ptr) (hq : q ≠ p) :
    (setParent h p x)[q]? = h[q]? := by
  unfold setParent
  split
  · rw [List.getElem?_set_ne (fun e => hq e.symm)]
  · rfl

theorem lookup_RemoveChild_ne (h : Store) (this t q : Ptr) (h1 : q ≠ this) (h2 : q ≠ t) :
    (RemoveChild h this t)[q]? = h[q]? := by
  rw [RemoveChild_eq]
  split
  · rw [lookup_setParent_ne _ _ _ _ h2, lookup_setChildren_ne _ _ _ _ h1]
  · rfl

theorem allocated_of_parent (h : Store) (c p : Ptr) (hc : parent h c = some p) :
    c < h.length := by
  by_contra hlt
  rw [parent_of_not_allocated h c hlt] at hc
  cases hc

theorem wf_child_of_parent {h : Store} (hwf : WellFormed h) {c p : Ptr}
    (hc : parent h c = some p) : p < h.length ∧ c ∈ children h p :=
  (hwf c (allocated_of_parent h c p hc)).2.2 p (by rw [hc]; exact rfl)

theorem wf_parent_of_child {h : Store} (hwf : WellFormed h) {c p : Ptr}
    (hc : c ∈ children h p) : c < h.length ∧ parent h c = some p :=
  (hwf p (allocated_of_mem_children h p c hc)).2.1 c hc

theorem wf_nodup_children {h : Store} (hwf : WellFormed h) (p : Ptr) :
    (children h p).Nodup := by
  by_cases hp : p < h.length
  · exact (hwf p hp).1
  · rw [children_of_not_allocated h p hp]
    exact List.nodup_nil

theorem erase_eq_filter_ne (l : List Ptr) (c : Ptr) (hnd : l.Nodup) :
    l.erase c = l.filter (fun x => x ≠ c) := by
  rw [hnd.erase_eq_filter]
  apply List.filter_congr
  intro x _
  by_cases hx : x = c <;> simp [hx]

/-- C14 (reparenting): in a well-formed store, when the parent of `c` is `p2` and `p`
is another node, after `AddChild(p, c)` the children of `p2` are its previous
children without `c`, in their previous order, the children of `p` are its previous
children followed by `c`, and the parent of `c` is `p`; the children of every other
node and the parent of every other node are as before. -/
theorem AddChild_reparents (h : Store) (p p2 c : Ptr) (hwf : WellFormed h)
    (hp : p < h.length) (hc : parent h c = some p2) (hne : p ≠ p2) :
    children (AddChild h p c) p2 = (children h p2).filter (fun x => x ≠ c)
      ∧ children (AddChild h p c) p = children h p ++ [c]
      ∧ parent (AddChild h p c) c = some p
      ∧ (∀ q, q ≠ p → q ≠ p2 → children (AddChild h p c) q = children h q)
      ∧ (∀ q, q ≠ c → parent (AddChild h p c) q = parent h q) := by
  have hclt := allocated_of_parent h c p2 hc
  have hmem := (wf_child_of_parent hwf hc).2
  have hne2 : p2 ≠ p := fun e => hne e.symm
  refine ⟨?_, ?_, ?_, ?_, ?_⟩
  · rw [children_AddChild, if_neg (fun hh => hne2 hh.1), children_detach, if_pos hc,
      erase_eq_filter_ne _ _ (wf_nodup_children hwf p2)]
  · rw [children_AddChild, if_pos ⟨rfl, hp⟩, children_detach, hc,
      if_neg (fun e => hne2 (Option.some.inj e))]
  · rw [parent_AddChild, if_pos ⟨rfl, hclt⟩]
  · intro q hq1 hq2
    rw [children_AddChild, if_neg (fun hh => hq1 hh.1), children_detach, hc,
      if_neg (fun e => hq2 (Option.some.inj e).symm)]
  · intro q hq
    rw [parent_AddChild, if_neg (fun hh => hq hh.1), parent_detach, if_neg (fun hh => hq hh.1)]

/-- Witness of C14: in `smallTree` the node 3 is a child of 2; `AddChild(1, 3)` leaves
2 without children, makes 3 the only child of 1 and sets the parent of 3 to 1. -/
theorem AddChild_reparents_witness :
    (WellFormed smallTree ∧ 1 < smallTree.length ∧ parent smallTree 3 = some 2 ∧ 1 ≠ 2)
      ∧ children (AddChild smallTree 1 3) 2 = []
      ∧ children (AddChild smallTree 1 3) 1 = [3]
      ∧ parent (AddChild smallTree 1 3) 3 = some 1 :=
  have h := AddChild_reparents smallTree 1 2 3 (by decide) (by decide) rfl (by decide)
  ⟨⟨by decide, by decide, rfl, by decide⟩, h.1.trans rfl, h.2.1.trans rfl, h.2.2.1⟩

/-- C20 (re-adding a child): in a well-formed store, when `c` is already a child of
`p`, after `AddChild(p, c)` the children of `p` are the previous children other than
`c`, in their previous order, followed by `c`; their number is unchanged, `c` occurs
once, as the last one, and the parent of `c` is still `p`. -/
theorem AddChild_existing_child_moves_last (h : Store) (p c : Ptr) (hwf : WellFormed h)
    (hc : c ∈ children h p) :
    children (AddChild h p c) p = (children h p).filter (fun x => x ≠ c) ++ [c]
      ∧ (children (AddChild h p c) p).length = (children h p).length
      ∧ (children (AddChild h p c) p).count c = 1
      ∧ (children (AddChild h p c) p).getLast? = some c
      ∧ parent h c = some p
      ∧ parent (AddChild h p c) c = some p := by
  have hplt := allocated_of_mem_children h p c hc
  obtain ⟨hclt, hpar⟩ := wf_parent_of_child hwf hc
  have hnd := wf_nodup_children hwf p
  have hch : children (AddChild h p c) p = (children h p).filter (fun x => x ≠ c) ++ [c] := by
    rw [children_AddChild, if_pos ⟨rfl, hplt⟩, children_detach, if_pos hpar,
      erase_eq_filter_ne _ _ hnd]
  have hfilter : (children h p).filter (fun x => x ≠ c) = (children h p).erase c :=
    (erase_eq_filter_ne _ _ hnd).symm
  refine ⟨hch, ?_, ?_, ?_, hpar, ?_⟩
  · rw [hch, hfilter, List.length_append, List.length_erase_of_mem hc]
    have : 0 < (children h p).length := List.length_pos_of_mem hc
    simp only [List.length_singleton]
    omega
  · rw [hch, List.count_append, List.count_eq_zero_of_not_mem (by simp)]
    simp
  · rw [hch]
    simp
  · rw [parent_AddChild, if_pos ⟨rfl, hclt⟩]

/-- Witness of C20: in `smallTree` the children of 0 are 1 and 2; `AddChild(0, 1)`
makes them 2 and 1, and the parent of 1 is still 0. -/
theorem AddChild_existing_child_moves_last_witness :
    (WellFormed smallTree ∧ 1 ∈ children smallTree 0)
      ∧ children smallTree 0 = [1, 2]
      ∧ children (AddChild smallTree 0 1) 0 = [2, 1]
      ∧ parent (AddChild smallTree 0 1) 1 = some 0 :=
  have h := AddChild_existing_child_moves_last smallTree 0 1 (by decide) (by decide)
  ⟨⟨by decide, by decide⟩, rfl, h.1.trans rfl, h.2.2.2.2.2⟩

theorem lt_of_descendant (h : Store)
    (hinc : ∀ p < h.length, ∀ c ∈ children h p, p < c) (a d : Ptr)
    (hd : Descendant h a d) : a < d := by
  induction hd with
  | single hl => exact hinc a (allocated_of_mem_children h a _ hl) _ hl
  | tail _ hl ih =>
    exact Nat.lt_trans ih (hinc _ (allocated_of_mem_children h _ _ hl) _ hl)

theorem acyclic_of_increasing (h : Store)
    (hinc : ∀ p < h.length, ∀ c ∈ children h p, p < c) : Acyclic h :=
  fun p hp => Nat.lt_irrefl p (lt_of_descendant h hinc p p hp)

/-- C16, as amended: when `c` occurs among the children of `p` and is not its own
descendant, after `RemoveChild(p, c)` the children of `p` are the previous ones with
the first occurrence of `c` erased (one fewer, the others in their previous order),
the parent of `c` is nil, the children and the other fields of `c` are as before, and
every descendant of `c` is as before, its parent included. -/
theorem RemoveChild_of_child (h : Store) (p c : Ptr) (hc : c ∈ children h p)
    (hcyc : ¬ Descendant h c c) :
    children (RemoveChild h p c) p = (children h p).erase c
      ∧ (children (RemoveChild h p c) p).length + 1 = (children h p).length
      ∧ parent (RemoveChild h p c) c = none
      ∧ children (RemoveChild h p c) c = children h c
      ∧ payload (RemoveChild h p c) c = payload h c
      ∧ (∀ d, Descendant h c d →
          parent (RemoveChild h p c) d = parent h d ∧ (RemoveChild h p c)[d]? = h[d]?) := by
  have hcp : c ≠ p := by
    intro e
    subst e
    exact hcyc (Relation.TransGen.single hc)
  have hch : children (RemoveChild h p c) p = (children h p).erase c := by
    rw [children_RemoveChild, if_pos rfl]
  refine ⟨hch, ?_, ?_, ?_, payload_RemoveChild h p c c, ?_⟩
  · rw [hch, List.length_erase_of_mem hc]
    have : 0 < (children h p).length := List.length_pos_of_mem hc
    omega
  · rw [parent_RemoveChild, if_pos ⟨rfl, hc⟩]
  · rw [children_RemoveChild, if_neg hcp]
  · intro d hd
    have hdc : d ≠ c := by
      intro e
      subst e
      exact hcyc hd
    have hdp : d ≠ p := by
      intro e
      subst e
      exact hcyc (Relation.TransGen.tail hd hc)
    refine ⟨?_, lookup_RemoveChild_ne h p c d hdp hdc⟩
    rw [parent_RemoveChild, if_neg (fun hh => hdc hh.1)]

/-- Witness of C16 as amended: in `smallTree` the node 2, a child of 0 with the
child 3, is removed from 0; 0 keeps the child 1, the parent of 2 is nil, 2 keeps its
child 3 and 3 keeps its parent 2. -/
theorem RemoveChild_of_child_witness :
    (2 ∈ children smallTree 0 ∧ ¬ Descendant smallTree 2 2 ∧ Descendant smallTree 2 3)
      ∧ children (RemoveChild smallTree 0 2) 0 = [1]
      ∧ parent (RemoveChild smallTree 0 2) 2 = none
      ∧ children (RemoveChild smallTree 0 2) 2 = [3]
      ∧ parent (RemoveChild smallTree 0 2) 3 = some 2 :=
  have h1 : 2 ∈ children smallTree 0 := by decide
  have h2 : ¬ Descendant smallTree 2 2 := acyclic_of_increasing smallTree (by decide) 2
  have h3 : Descendant smallTree 2 3 :=
    Relation.TransGen.single (show 3 ∈ children smallTree 2 by decide)
  have h := RemoveChild_of_child smallTree 0 2 h1 h2
  ⟨⟨h1, h2, h3⟩, h.1.trans rfl, h.2.2.1, h.2.2.2.1.trans rfl,
    ((h.2.2.2.2.2 3 h3).1).trans rfl⟩

/-- C16, counterexample: `selfChild` is reached by `NewNode` and `AddChild(0, 0)`; its
node 0 occurs among its own children, and `RemoveChild(0, 0)` changes the children of
the removed node from `[0]` to none.  `twoCycle` is reached by two calls of
`AddChild`; its node 1 is a child of 0 and a descendant of itself, and
`RemoveChild(0, 1)` changes the parent of that descendant from 0 to nil. -/
theorem RemoveChild_on_cycle_changes_removed_node :
    Reachable selfChild
      ∧ 0 ∈ children selfChild 0
      ∧ children selfChild 0 = [0]
      ∧ children (RemoveChild selfChild 0 0) 0 = []
      ∧ Reachable twoCycle
      ∧ 1 ∈ children twoCycle 0
      ∧ Descendant twoCycle 1 1
      ∧ parent twoCycle 1 = some 0
      ∧ parent (RemoveChild twoCycle 0 1) 1 = none := by
  refine ⟨?_, by decide, rfl, rfl, ?_, by decide, ?_, rfl, rfl⟩
  · exact Reachable.addChild _ 0 0 (Reachable.newNode [] NT_ROOT Reachable.empty)
      (by decide) (by decide)
  · exact Reachable.addChild _ 1 0
      (Reachable.addChild _ 0 1
        (Reachable.newNode _ NT_ELEMENT (Reachable.newNode [] NT_ELEMENT Reachable.empty))
        (by decide) (by decide))
      (by decide) (by decide)
  · exact Relation.TransGen.tail
      (Relation.TransGen.single (show 0 ∈ children twoCycle 1 by decide))
      (show 1 ∈ children twoCycle 0 by decide)

theorem wf_RemoveChild {h : Store} (hwf : WellFormed h) (this t : Ptr) :
    WellFormed (RemoveChild h this t) := by
  intro p hp
  rw [length_RemoveChild] at hp ⊢
  obtain ⟨hnd, hch, hpar⟩ := hwf p hp
  refine ⟨?_, ?_, ?_⟩
  · rw [children_RemoveChild]
    split
    · exact (wf_nodup_children hwf this).erase t
    · exact hnd
  · intro c hc
    have hc0 : c ∈ children h p := by
      rw [children_RemoveChild] at hc
      split at hc
      · rename_i hpt
        rw [hpt]
        exact List.mem_of_mem_erase hc
      · exact hc
    obtain ⟨hclt, hcpar⟩ := hch c hc0
    refine ⟨hclt, ?_⟩
    rw [parent_RemoveChild, if_neg, hcpar]
    rintro ⟨hct, htmem⟩
    subst hct
    have hpt : p = this := by
      have := (wf_parent_of_child hwf htmem).2
      rw [hcpar] at this
      exact Option.some.inj this
    subst hpt
    rw [children_RemoveChild, if_pos rfl] at hc
    exact (wf_nodup_children hwf p).not_mem_erase hc
  · intro q hq
    rw [parent_RemoveChild] at hq
    split at hq
    · cases hq
    · rename_i hcond
      obtain ⟨hqlt, hpq⟩ := hpar q hq
      refine ⟨hqlt, ?_⟩
      rw [children_RemoveChild]
      split
      · rename_i hqt
        subst hqt
        have hpt : p ≠ t := fun e => hcond ⟨e, e ▸ hpq⟩
        exact (List.mem_erase_of_ne hpt).mpr hpq
      · exact hpq

theorem wf_detach {h : Store} (hwf : WellFormed h) (t : Ptr) :
    WellFormed (detach h t) := by
  unfold detach
  split
  · exact wf_RemoveChild hwf _ _
  · exact hwf

theorem wf_parent_detach {h : Store} (hwf : WellFormed h) (t : Ptr) :
    parent (detach h t) t = none := by
  rw [parent_detach]
  cases hp : parent h t with
  | none => simp
  | some q =>
    rw [if_pos]
    exact ⟨rfl, q, rfl, (wf_child_of_parent hwf hp).2⟩

theorem wf_not_mem_children_detach {h : Store} (hwf : WellFormed h) (t x : Ptr) :
    t ∉ children (detach h t) x := by
  intro hmem
  have := (wf_parent_of_child (wf_detach hwf t) hmem).2
  rw [wf_parent_detach hwf t] at this
  cases this

theorem wf_AddChild {h : Store} (hwf : WellFormed h) (this t : Ptr)
    (hthis : this < h.length) (ht : t < h.length) : WellFormed (AddChild h this t) := by
  have hd := wf_detach hwf t
  have hnot := wf_not_mem_children_detach hwf t
  intro p hp
  rw [length_AddChild] at hp ⊢
  have hpd : p < (detach h t).length := by rw [length_detach]; exact hp
  obtain ⟨hnd, hch, hpar⟩ := hd p hpd
  rw [length_detach] at hch hpar
  refine ⟨?_, ?_, ?_⟩
  · rw [children_AddChild]
    split
    · rename_i hpt
      rw [hpt.1] at hnd
      refine List.Nodup.append hnd (List.nodup_singleton t) ?_
      intro x hx1 hx2
      rw [List.mem_singleton] at hx2
      subst hx2
      exact hnot this hx1
    · exact hnd
  · intro c hc
    rw [children_AddChild] at hc
    have hcase : c ∈ children (detach h t) p ∨ (c = t ∧ p = this) := by
      split at hc
      · rename_i hpt
        rcases List.mem_append.mp hc with h1 | h1
        · left
          rw [hpt.1]
          exact h1
        · right
          exact ⟨List.mem_singleton.mp h1, hpt.1⟩
      · left
        exact hc
    rcases hcase with h1 | ⟨h1, h2⟩
    · obtain ⟨hclt, hcpar⟩ := hch c h1
      refine ⟨hclt, ?_⟩
      have hct : c ≠ t := by
        intro e
        subst e
        exact hnot p h1
      rw [parent_AddChild, if_neg (fun hh => hct hh.1), hcpar]
    · subst h1
      subst h2
      refine ⟨ht, ?_⟩
      rw [parent_AddChild, if_pos ⟨rfl, ht⟩]
  · intro q hq
    rw [parent_AddChild] at hq
    split at hq
    · rename_i hpt
      have hq2 : q = this := (Option.some.inj hq).symm
      subst hq2
      refine ⟨hthis, ?_⟩
      rw [children_AddChild, if_pos ⟨rfl, hthis⟩, hpt.1]
      simp
    · obtain ⟨hqlt, hpq⟩ := hpar q hq
      refine ⟨hqlt, ?_⟩
      rw [children_AddChild]
      split
      · rename_i hqt
        rw [hqt.1] at hpq
        exact List.mem_append_left _ hpq
      · exact hpq

theorem children_NewNode (h : Store) (tid : Nat) (q : Nat) :
    children (NewNode h tid).1 q = children h q := by
  unfold NewNode children
  by_cases hq : q < h.length
  · rw [List.getElem?_append_left hq]
  · rw [lookup_none h q hq]
    by_cases hq2 : q = h.length
    · subst hq2
      simp
    · rw [List.getElem?_eq_none]
      simp only [List.length_append, List.length_singleton]
      omega

theorem parent_NewNode (h : Store) (tid : Nat) (q : Nat) :
    parent (NewNode h tid).1 q = parent h q := by
  unfold NewNode parent
  by_cases hq : q < h.length
  · rw [List.getElem?_append_left hq]
  · rw [lookup_none h q hq]
    by_cases hq2 : q = h.length
    · subst hq2
      simp
    · rw [List.getElem?_eq_none]
      simp only [List.length_append, List.length_singleton]
      omega

theorem length_NewNode (h : Store) (tid : Nat) : (NewNode h tid).1.length = h.length + 1 := by
  simp [NewNode]

theorem wf_NewNode {h : Store} (hwf : WellFormed h) (tid : Nat) :
    WellFormed (NewNode h tid).1 := by
  intro p _
  rw [length_NewNode, children_NewNode, parent_NewNode]
  refine ⟨wf_nodup_children hwf p, ?_, ?_⟩
  · intro c hc
    rw [parent_NewNode]
    have := wf_parent_of_child hwf hc
    exact ⟨Nat.lt_succ_of_lt this.1, this.2⟩
  · intro q hq
    rw [children_NewNode]
    have := wf_child_of_parent hwf (show parent h p = some q from hq)
    exact ⟨Nat.lt_succ_of_lt this.1, this.2⟩

theorem length_populate (h : Store) (p : Ptr) (nm : xml.Name) (as : List Attr)
    (v tg : String) : (populate h p nm as v tg).length = h.length := by
  unfold populate
  split <;> simp

theorem children_populate (h : Store) (p : Ptr) (nm : xml.Name) (as : List Attr)
    (v tg : String) (q : Ptr) : children (populate h p nm as v tg) q = children h q := by
  unfold populate
  cases hp : h[p]? with
  | none => rfl
  | some n =>
    simp only [children, List.getElem?_set]
    by_cases hq : p = q
    · subst hq
      simp [allocated_of_lookup h p n hp, hp]
    · simp [hq]

theorem parent_populate (h : Store) (p : Ptr) (nm : xml.Name) (as : List Attr)
    (v tg : String) (q : Ptr) : parent (populate h p nm as v tg) q = parent h q := by
  unfold populate
  cases hp : h[p]? with
  | none => rfl
  | some n =>
    simp only [parent, List.getElem?_set]
    by_cases hq : p = q
    · subst hq
      simp [allocated_of_lookup h p n hp, hp]
    · simp [hq]

theorem wf_populate {h : Store} (hwf : WellFormed h) (p : Ptr) (nm : xml.Name)
    (as : List Attr) (v tg : String) : WellFormed (populate h p nm as v tg) := by
  intro q hq
  rw [length_populate] at hq ⊢
  rw [children_populate, parent_populate]
  obtain ⟨hnd, hch, hpar⟩ := hwf q hq
  refine ⟨hnd, ?_, ?_⟩
  · intro c hc
    rw [parent_populate]
    exact hch c hc
  · intro r hr
    rw [children_populate]
    exact hpar r hr

theorem wellFormed_of_reachable {h : Store} (hr : Reachable h) : WellFormed h := by
  induction hr with
  | empty => intro p hp; cases hp
  | newNode h tid _ ih => exact wf_NewNode ih tid
  | addChild h this t _ hthis ht ih => exact wf_AddChild ih this t hthis ht
  | removeChild h this t _ _ _ ih => exact wf_RemoveChild ih this t
  | populate h p nm as v tg _ _ ih => exact wf_populate ih p nm as v tg

/-- C17 (single parent): in every state reachable by `NewNode`, `AddChild`,
`RemoveChild` and population of fields, the parent of `c` is `p` exactly when `c`
occurs among the children of `p`, once, and among the children of no other node; no
node occurs twice among the children of one node, nor among the children of two
nodes. -/
theorem single_parent_invariant (h : Store) (hr : Reachable h) (c p : Ptr) :
    (parent h c = some p
        ↔ (c ∈ children h p ∧ (children h p).count c = 1
            ∧ ∀ q, q ≠ p → c ∉ children h q))
      ∧ (∀ q, (children h q).count c ≤ 1)
      ∧ (∀ q1 q2, c ∈ children h q1 → c ∈ children h q2 → q1 = q2) := by
  have hwf := wellFormed_of_reachable hr
  have huniq : ∀ q1 q2, c ∈ children h q1 → c ∈ children h q2 → q1 = q2 := by
    intro q1 q2 h1 h2
    have e1 := (wf_parent_of_child hwf h1).2
    have e2 := (wf_parent_of_child hwf h2).2
    rw [e1] at e2
    exact Option.some.inj e2
  refine ⟨⟨?_, ?_⟩, ?_, huniq⟩
  · intro hpar
    have hmem := (wf_child_of_parent hwf hpar).2
    refine ⟨hmem, List.count_eq_one_of_mem (wf_nodup_children hwf p) hmem, ?_⟩
    intro q hq hcq
    exact hq (huniq q p hcq hmem)
  · rintro ⟨hmem, _, _⟩
    exact (wf_parent_of_child hwf hmem).2
  · intro q
    exact (List.nodup_iff_count_le_one.mp (wf_nodup_children hwf q)) c

theorem reachable_smallTree : Reachable smallTree :=
  Reachable.addChild _ 2 3
    (Reachable.addChild _ 0 2
      (Reachable.addChild _ 0 1
        (Reachable.newNode _ NT_COMMENT
          (Reachable.newNode _ NT_ELEMENT
            (Reachable.newNode _ NT_ELEMENT (Reachable.newNode [] NT_ROOT Reachable.empty))))
        (by decide) (by decide))
      (by decide) (by decide))
    (by decide) (by decide)

/-- Witness of C17: `smallTree` is reachable; the parent of its node 3 is 2, and 3
occurs once among the children of 2 and not among those of 0. -/
theorem single_parent_invariant_witness :
    Reachable smallTree
      ∧ (parent smallTree 3 = some 2
        ↔ (3 ∈ children smallTree 2 ∧ (children smallTree 2).count 3 = 1
            ∧ ∀ q, q ≠ 2 → 3 ∉ children smallTree q))
      ∧ (parent smallTree 3 = some 0
        ↔ (3 ∈ children smallTree 0 ∧ (children smallTree 0).count 3 = 1
            ∧ ∀ q, q ≠ 0 → 3 ∉ children smallTree q)) :=
  ⟨reachable_smallTree, (single_parent_invariant smallTree reachable_smallTree 3 2).1,
    (single_parent_invariant smallTree reachable_smallTree 3 0).1⟩

/-! ### Nodes that lie on no cycle -/

theorem inSubtree_chain (h : Store) (hwf : WellFormed h) (a y : Ptr)
    (ha : InSubtree h a y) : ∀ b, InSubtree h b y → InSubtree h a b ∨ InSubtree h b a := by
  induction ha with
  | refl => intro b hb; exact Or.inr hb
  | tail haz hzy ih =>
    rename_i z y
    intro b hb
    rcases Relation.ReflTransGen.cases_tail hb with hby | ⟨z2, hbz2, hz2y⟩
    · left
      rw [← hby]
      exact Relation.ReflTransGen.tail haz hzy
    · have e1 := (wf_parent_of_child hwf hzy).2
      have e2 := (wf_parent_of_child hwf hz2y).2
      rw [e1] at e2
      have hz : z = z2 := Option.some.inj e2
      subst hz
      exact ih b hbz2

theorem not_inSubtree_of_child (h : Store) (x c : Ptr) (hx : ¬ Descendant h x x)
    (hc : c ∈ children h x) : ¬ InSubtree h c x := by
  intro hcx
  exact hx (Relation.TransGen.head' hc hcx)

theorem not_descendant_self_of_inSubtree (h : Store) (hwf : WellFormed h) (x : Ptr)
    (hx : ¬ Descendant h x x) (y : Ptr) (hy : InSubtree h x y) : ¬ Descendant h y y := by
  induction hy with
  | refl => exact hx
  | tail hxz hzy ih =>
    rename_i z y
    intro hyy
    obtain ⟨b, hyb, hby⟩ := Relation.TransGen.tail'_iff.mp hyy
    have e1 := (wf_parent_of_child hwf hzy).2
    have e2 := (wf_parent_of_child hwf hby).2
    rw [e1] at e2
    have hz : z = b := Option.some.inj e2
    subst hz
    exact ih (Relation.TransGen.head' hzy hyb)

theorem acc_of_not_on_cycle (h : Store) (hwf : WellFormed h) (x : Ptr)
    (hx : ¬ Descendant h x x) : Acc (fun c p => link h p c) x := by
  let r : Fin h.length → Fin h.length → Prop :=
    fun a b => Descendant h b.val a.val ∧ InSubtree h x b.val
  have htrans : IsTrans (Fin h.length) r :=
    ⟨fun a b c hab hbc => ⟨Relation.TransGen.trans hbc.1 hab.1, hbc.2⟩⟩
  have hirr : IsIrrefl (Fin h.length) r :=
    ⟨fun a ha => not_descendant_self_of_inSubtree h hwf x hx a.val ha.2 ha.1⟩
  have hwfr : WellFounded r := Finite.wellFounded_of_trans_of_irrefl r
  have key : ∀ a : Fin h.length, InSubtree h x a.val → Acc (fun c p => link h p c) a.val := by
    intro a
    induction a using hwfr.induction with
    | _ a ih =>
      intro hxa
      constructor
      intro c hc
      have hclt := (wf_parent_of_child hwf hc).1
      exact ih ⟨c, hclt⟩ ⟨Relation.TransGen.single hc, hxa⟩
        (Relation.ReflTransGen.tail hxa hc)
  by_cases hlt : x < h.length
  · exact key ⟨x, hlt⟩ Relation.ReflTransGen.refl
  · constructor
    intro c hc
    have := allocated_of_mem_children h x c hc
    exact absurd this hlt

theorem subtrees_of_children_disjoint (h : Store) (hwf : WellFormed h)
    (x : Ptr) (hx : ¬ Descendant h x x) (c1 c2 y : Ptr) (h1 : c1 ∈ children h x) (h2 : c2 ∈ children h x) (hne : c1 ≠ c2)
    (hy1 : InSubtree h c1 y) (hy2 : InSubtree h c2 y) : False := by
  have aux : ∀ a b, a ∈ children h x → b ∈ children h x → a ≠ b → InSubtree h a b → False := by
    intro a b ha hb hab hsub
    rcases Relation.ReflTransGen.cases_tail hsub with e | ⟨z, haz, hzb⟩
    · exact hab e.symm
    · have e1 := (wf_parent_of_child hwf hzb).2
      have e2 := (wf_parent_of_child hwf hb).2
      rw [e1] at e2
      have hz : z = x := Option.some.inj e2
      subst hz
      exact not_inSubtree_of_child h z a hx ha haz
  rcases inSubtree_chain h hwf c1 y hy1 c2 hy2 with hs | hs
  · exact aux c1 c2 h1 h2 hne hs
  · exact aux c2 c1 h2 h1 (fun e => hne e.symm) hs

/-! ### The walk along the child pointers -/

theorem children_of_lookup (h : Store) (x : Ptr) (n : Node) (hn : h[x]? = some n) :
    children h x = n.Children := by
  unfold children
  rw [hn]

theorem visits_range_cons (f : Ptr → Option (List Ptr)) (v : Ptr) (rest : List Ptr)
    (ls : List Ptr) (hr : visits_range f (v :: rest) = some ls) :
    ∃ l ls1, f v = some l ∧ visits_range f rest = some ls1 ∧ ls = l ++ ls1 := by
  simp only [visits_range] at hr
  cases hf : f v with
  | none => rw [hf] at hr; cases hr
  | some l =>
    cases hrest : visits_range f rest with
    | none => rw [hf, hrest] at hr; cases hr
    | some ls1 =>
      rw [hf, hrest] at hr
      exact ⟨l, ls1, rfl, rfl, (Option.some.inj hr).symm⟩

theorem visits_range_defined (f : Ptr → Option (List Ptr)) (cs : List Ptr)
    (hall : ∀ c ∈ cs, ∃ l, f c = some l) : ∃ ls, visits_range f cs = some ls := by
  induction cs with
  | nil => exact ⟨[], rfl⟩
  | cons v rest ih =>
    obtain ⟨l, hl⟩ := hall v (List.mem_cons_self v rest)
    obtain ⟨ls, hls⟩ := ih (fun c hc => hall c (List.mem_cons_of_mem v hc))
    exact ⟨l ++ ls, by simp only [visits_range, hl, hls]⟩

theorem exists_bound_forall_mem (P : Ptr → Nat → Prop) (cs : List Ptr)
    (hall : ∀ c ∈ cs, ∃ N, ∀ fuel, N ≤ fuel → P c fuel) :
    ∃ N, ∀ fuel, N ≤ fuel → ∀ c ∈ cs, P c fuel := by
  induction cs with
  | nil => exact ⟨0, fun _ _ c hc => absurd hc (List.not_mem_nil c)⟩
  | cons v rest ih =>
    obtain ⟨N1, h1⟩ := hall v (List.mem_cons_self v rest)
    obtain ⟨N2, h2⟩ := ih (fun c hc => hall c (List.mem_cons_of_mem v hc))
    refine ⟨max N1 N2, ?_⟩
    intro fuel hfuel c hc
    rcases List.mem_cons.mp hc with e | hc2
    · rw [e]
      exact h1 fuel (le_trans (le_max_left N1 N2) hfuel)
    · exact h2 fuel (le_trans (le_max_right N1 N2) hfuel) c hc2

theorem walk_terminates (h : Store) (hwf : WellFormed h) (x : Ptr)
    (hacc : Acc (fun c p => link h p c) x) :
    x < h.length → ∃ N, ∀ fuel, N ≤ fuel → ∃ w, walk h fuel x = some w := by
  induction hacc with
  | intro x _ ih =>
    intro hx
    have hall : ∀ c ∈ children h x, ∃ N, ∀ fuel, N ≤ fuel → ∃ w, walk h fuel c = some w :=
      fun c hc => ih c hc (wf_parent_of_child hwf hc).1
    obtain ⟨N, hN⟩ := exists_bound_forall_mem
      (fun c fuel => ∃ w, walk h fuel c = some w) (children h x) hall
    refine ⟨N + 1, ?_⟩
    intro fuel hfuel
    obtain ⟨f, rfl⟩ : ∃ f, fuel = f + 1 := ⟨fuel - 1, by omega⟩
    have hf : N ≤ f := by omega
    have hlook : h[x]? = some h[x] := List.getElem?_eq_getElem hx
    obtain ⟨ls, hls⟩ := visits_range_defined (fun v => walk h f v) (children h x) (hN f hf)
    rw [children_of_lookup h x _ hlook] at hls
    exact ⟨x :: ls, by simp only [walk, hlook, hls]⟩

theorem visits_range_props (h : Store) (hwf : WellFormed h) (x : Ptr)
    (hx : ¬ Descendant h x x) (f : Ptr → Option (List Ptr))
    (ihf : ∀ c ∈ children h x, ∀ l, f c = some l →
      (∀ y ∈ l, InSubtree h c y ∧ y < h.length) ∧ l.Nodup)
    (cs : List Ptr) :
    cs.Nodup → (∀ c ∈ cs, c ∈ children h x) → ∀ ls, visits_range f cs = some ls →
      (∀ y ∈ ls, ∃ c ∈ cs, InSubtree h c y ∧ y < h.length) ∧ ls.Nodup := by
  induction cs with
  | nil =>
    intro _ _ ls hr
    simp only [visits_range, Option.some.injEq] at hr
    subst hr
    exact ⟨fun y hy => absurd hy (List.not_mem_nil y), List.nodup_nil⟩
  | cons v rest ih =>
    intro hnd hsub ls hr
    obtain ⟨l, ls1, hl, hls1, rfl⟩ := visits_range_cons f v rest ls hr
    have hv := ihf v (hsub v (List.mem_cons_self v rest)) l hl
    have hrest := ih (List.nodup_cons.mp hnd).2
      (fun c hc => hsub c (List.mem_cons_of_mem v hc)) ls1 hls1
    refine ⟨?_, ?_⟩
    · intro y hy
      rcases List.mem_append.mp hy with hy1 | hy1
      · exact ⟨v, List.mem_cons_self v rest, hv.1 y hy1⟩
      · obtain ⟨c, hc, hcy⟩ := hrest.1 y hy1
        exact ⟨c, List.mem_cons_of_mem v hc, hcy⟩
    · refine List.Nodup.append hv.2 hrest.2 ?_
      intro y hy1 hy2
      obtain ⟨c, hc, hcy, _⟩ := hrest.1 y hy2
      have hvc : v ≠ c := by
        intro e
        rw [← e] at hc
        exact (List.nodup_cons.mp hnd).1 hc
      exact subtrees_of_children_disjoint h hwf x hx v c y
        (hsub v (List.mem_cons_self v rest)) (hsub c (List.mem_cons_of_mem v hc)) hvc
        (hv.1 y hy1).1 hcy

theorem walk_props (h : Store) (hwf : WellFormed h) :
    ∀ fuel x w, ¬ Descendant h x x → walk h fuel x = some w →
      (∀ y ∈ w, InSubtree h x y ∧ y < h.length) ∧ w.Nodup := by
  intro fuel
  induction fuel with
  | zero => intro x w _ hw; simp [walk] at hw
  | succ f ih =>
    intro x w hx hw
    cases hlook : h[x]? with
    | none => simp [walk, hlook] at hw
    | some n =>
      cases hr : visits_range (fun v => walk h f v) n.Children with
      | none => simp [walk, hlook, hr] at hw
      | some ls =>
        simp only [walk, hlook, hr] at hw
        have hweq : w = x :: ls := (Option.some.inj hw).symm
        subst hweq
        have hch := children_of_lookup h x n hlook
        have hp := visits_range_props h hwf x hx (fun v => walk h f v)
          (fun c hc l hcl => ih c l
            (not_descendant_self_of_inSubtree h hwf x hx c
              (Relation.ReflTransGen.single hc)) hcl) n.Children
          (by rw [← hch]; exact wf_nodup_children hwf x)
          (fun c hc => by rw [hch]; exact hc) ls hr
        have hxlt := allocated_of_lookup h x n hlook
        refine ⟨?_, ?_⟩
        · intro y hy
          rcases List.mem_cons.mp hy with e | hy1
          · rw [e]
            exact ⟨Relation.ReflTransGen.refl, hxlt⟩
          · obtain ⟨c, hc, hcy, hylt⟩ := hp.1 y hy1
            refine ⟨Relation.ReflTransGen.head ?_ hcy, hylt⟩
            show c ∈ children h x
            rw [hch]
            exact hc
        · refine List.nodup_cons.mpr ⟨?_, hp.2⟩
          intro hxin
          obtain ⟨c, hc, hcx, _⟩ := hp.1 x hxin
          exact not_inSubtree_of_child h x c hx (by rw [hch]; exact hc) hcx

theorem length_le_of_nodup_of_lt (l : List Nat) (n : Nat) (hnd : l.Nodup)
    (hlt : ∀ y ∈ l, y < n) : l.length ≤ n := by
  have hsub : l.toFinset ⊆ Finset.range n := by
    intro y hy
    rw [List.mem_toFinset] at hy
    exact Finset.mem_range.mpr (hlt y hy)
  have := Finset.card_le_card hsub
  rw [List.toFinset_card_of_nodup hnd, Finset.card_range] at this
  exact this

/-! ### The searches and the rendering follow the walk -/

theorem walk_succ (h : Store) (f : Nat) (x : Ptr) (w : List Ptr)
    (hw : walk h (f + 1) x = some w) :
    ∃ n ls, h[x]? = some n ∧ visits_range (fun v => walk h f v) n.Children = some ls
      ∧ w = x :: ls := by
  cases hlook : h[x]? with
  | none => simp [walk, hlook] at hw
  | some n =>
    cases hr : visits_range (fun v => walk h f v) n.Children with
    | none => simp [walk, hlook, hr] at hw
    | some ls =>
      simp only [walk, hlook, hr] at hw
      exact ⟨n, ls, rfl, hr, (Option.some.inj hw).symm⟩

theorem visits_range_of_imp (f g : Ptr → Option (List Ptr)) (cs : List Ptr)
    (hfg : ∀ c ∈ cs, ∀ l, f c = some l → g c = some l) :
    ∀ ls, visits_range f cs = some ls → visits_range g cs = some ls := by
  induction cs with
  | nil => intro ls hr; exact hr
  | cons v rest ih =>
    intro ls hr
    obtain ⟨l, ls1, hl, hls1, rfl⟩ := visits_range_cons f v rest ls hr
    have h1 := hfg v (List.mem_cons_self v rest) l hl
    have h2 := ih (fun c hc => hfg c (List.mem_cons_of_mem v hc)) ls1 hls1
    simp only [visits_range, h1, h2]

theorem length_le_of_visits_range (f : Ptr → Option (List Ptr)) (cs : List Ptr) :
    ∀ ls, visits_range f cs = some ls → ∀ c ∈ cs, ∀ l, f c = some l →
      l.length ≤ ls.length := by
  induction cs with
  | nil => intro ls _ c hc; cases hc
  | cons v rest ih =>
    intro ls hr c hc l hl
    obtain ⟨lv, ls1, hlv, hls1, rfl⟩ := visits_range_cons f v rest ls hr
    rw [List.length_append]
    rcases List.mem_cons.mp hc with e | hc2
    · rw [e, hlv] at hl
      rw [Option.some.inj hl]
      exact Nat.le_add_right _ _
    · exact le_trans (ih ls1 hls1 c hc2 l hl) (Nat.le_add_left _ _)

theorem walk_of_le (h : Store) :
    ∀ f x w, walk h f x = some w → ∀ g, f ≤ g → walk h g x = some w := by
  intro f
  induction f with
  | zero => intro x w hw; cases hw
  | succ f ih =>
    intro x w hw g hg
    obtain ⟨n, ls, hlook, hls, rfl⟩ := walk_succ h f x w hw
    obtain ⟨g1, rfl⟩ : ∃ g1, g = g1 + 1 := ⟨g - 1, by omega⟩
    have hg1 : f ≤ g1 := by omega
    have hls2 := visits_range_of_imp (fun v => walk h f v) (fun v => walk h g1 v) n.Children
      (fun c _ l hl => ih c l hl g1 hg1) ls hls
    simp only [walk, hlook, hls2]

/-- A walk that ends does so within a depth of calls equal to the number of the nodes
that it enters. -/
theorem walk_at_length (h : Store) :
    ∀ f x w, walk h f x = some w → walk h w.length x = some w := by
  intro f
  induction f with
  | zero => intro x w hw; cases hw
  | succ f ih =>
    intro x w hw
    obtain ⟨n, ls, hlook, hls, rfl⟩ := walk_succ h f x w hw
    have hls2 := visits_range_of_imp (fun v => walk h f v) (fun v => walk h ls.length v)
      n.Children
      (fun c hc l hl => walk_of_le h l.length c l (ih c l hl) ls.length
        (length_le_of_visits_range _ n.Children ls hls c hc l hl)) ls hls
    simp only [List.length_cons, walk, hlook, hls2]

theorem visits_range_sublist (G W : Ptr → Option (List Ptr))
    (ih : ∀ c wc, W c = some wc → ∃ l, G c = some l ∧ l.Sublist wc) (cs : List Ptr) :
    ∀ ls, visits_range W cs = some ls → ∃ l, visits_range G cs = some l ∧ l.Sublist ls := by
  induction cs with
  | nil =>
    intro ls hr
    simp only [visits_range, Option.some.injEq] at hr
    subst hr
    exact ⟨[], rfl, List.Sublist.refl _⟩
  | cons v rest ihcs =>
    intro ls hr
    obtain ⟨wv, ls1, hwv, hls1, rfl⟩ := visits_range_cons W v rest ls hr
    obtain ⟨lv, hlv, hsub⟩ := ih v wv hwv
    obtain ⟨l1, hl1, hsub1⟩ := ihcs ls1 hls1
    exact ⟨lv ++ l1, by simp only [visits_range, hlv, hl1], List.Sublist.append hsub hsub1⟩

theorem rec_SelectNode_range_of_walk (F : Ptr → Option (Option Ptr))
    (G W : Ptr → Option (List Ptr))
    (ih : ∀ c wc, W c = some wc → ∃ r l, F c = some r ∧ G c = some l ∧ l.Sublist wc)
    (cs : List Ptr) :
    ∀ ls, visits_range W cs = some ls →
      ∃ r l, rec_SelectNode_range F cs = some r
        ∧ rec_SelectNode_visits_range F G cs = some l ∧ l.Sublist ls := by
  induction cs with
  | nil =>
    intro ls hr
    simp only [visits_range, Option.some.injEq] at hr
    subst hr
    exact ⟨none, [], rfl, rfl, List.Sublist.refl _⟩
  | cons v rest ihcs =>
    intro ls hr
    obtain ⟨wv, ls1, hwv, hls1, rfl⟩ := visits_range_cons W v rest ls hr
    obtain ⟨rv, lv, hrv, hlv, hsub⟩ := ih v wv hwv
    cases rv with
    | some tn =>
      refine ⟨some tn, lv, ?_, ?_, ?_⟩
      · simp only [rec_SelectNode_range, hrv]
      · simp only [rec_SelectNode_visits_range, hrv, hlv]
      · exact hsub.trans (List.sublist_append_left wv ls1)
    | none =>
      obtain ⟨r1, l1, hr1, hl1, hsub1⟩ := ihcs ls1 hls1
      refine ⟨r1, lv ++ l1, ?_, ?_, List.Sublist.append hsub hsub1⟩
      · simp only [rec_SelectNode_range, hrv, hr1]
      · simp only [rec_SelectNode_visits_range, hrv, hlv, hl1]

theorem rec_SelectNode_of_walk (h : Store) (namespace_ name : String) :
    ∀ fuel x w, walk h fuel x = some w →
      ∃ r l, rec_SelectNode h fuel x namespace_ name = some r
        ∧ rec_SelectNode_visits h fuel x namespace_ name = some l ∧ l.Sublist w := by
  intro fuel
  induction fuel with
  | zero => intro x w hw; simp [walk] at hw
  | succ f ih =>
    intro x w hw
    obtain ⟨n, ls, hlook, hr, rfl⟩ := walk_succ h f x w hw
    by_cases hm : ((namespace_ == "*" || n.Name.Space == namespace_)
        && n.Name.Local == name) = true
    · refine ⟨some x, [x], ?_, ?_, ?_⟩
      · simp only [rec_SelectNode, hlook, hm, if_true]
      · simp only [rec_SelectNode_visits, hlook, hm, if_true]
      · exact List.singleton_sublist.mpr (List.mem_cons_self x ls)
    · obtain ⟨r, l, hr1, hl1, hsub⟩ := rec_SelectNode_range_of_walk
        (fun v => rec_SelectNode h f v namespace_ name)
        (fun v => rec_SelectNode_visits h f v namespace_ name) (fun v => walk h f v)
        (fun c wc hc => ih c wc hc) n.Children ls hr
      refine ⟨r, x :: l, ?_, ?_, hsub.cons₂ x⟩
      · simp only [rec_SelectNode, hlook, hm]
        exact hr1
      · simp only [rec_SelectNode_visits, hlook, hm, hl1]
        rfl

theorem rec_SelectNodes_range_defined (F : Ptr → List Ptr → Option (List Ptr))
    (cs : List Ptr) (hall : ∀ c ∈ cs, ∀ list, ∃ r, F c list = some r) :
    ∀ list, ∃ r, rec_SelectNodes_range F cs list = some r := by
  induction cs with
  | nil => intro list; exact ⟨list, rfl⟩
  | cons v rest ih =>
    intro list
    obtain ⟨r1, hr1⟩ := hall v (List.mem_cons_self v rest) list
    obtain ⟨r, hr⟩ := ih (fun c hc => hall c (List.mem_cons_of_mem v hc)) r1
    exact ⟨r, by simp only [rec_SelectNodes_range, hr1, hr]⟩

theorem defined_of_visits_range (W : Ptr → Option (List Ptr)) (cs : List Ptr) :
    ∀ ls, visits_range W cs = some ls → ∀ c ∈ cs, ∃ wc, W c = some wc := by
  induction cs with
  | nil => intro ls _ c hc; cases hc
  | cons v rest ih =>
    intro ls hr c hc
    obtain ⟨wv, ls1, hwv, hls1, _⟩ := visits_range_cons W v rest ls hr
    rcases List.mem_cons.mp hc with e | hc2
    · rw [e]
      exact ⟨wv, hwv⟩
    · exact ih ls1 hls1 c hc2

theorem rec_SelectNodes_of_walk (h : Store) (namespace_ name : String) :
    ∀ fuel x w, walk h fuel x = some w →
      (∀ list, ∃ r, rec_SelectNodes h fuel x namespace_ name list = some r)
        ∧ ∃ l, rec_SelectNodes_visits h fuel x namespace_ name = some l ∧ l.Sublist w := by
  intro fuel
  induction fuel with
  | zero => intro x w hw; simp [walk] at hw
  | succ f ih =>
    intro x w hw
    obtain ⟨n, ls, hlook, hr, rfl⟩ := walk_succ h f x w hw
    by_cases hm : ((namespace_ == "*" || n.Name.Space == namespace_)
        && n.Name.Local == name) = true
    · refine ⟨fun list => ⟨list ++ [x], ?_⟩, [x], ?_, ?_⟩
      · simp only [rec_SelectNodes, hlook, hm, if_true]
      · simp only [rec_SelectNodes_visits, hlook, hm, if_true]
      · exact List.singleton_sublist.mpr (List.mem_cons_self x ls)
    · have hdef := defined_of_visits_range (fun v => walk h f v) n.Children ls hr
      obtain ⟨l, hl1, hsub⟩ := visits_range_sublist
        (fun v => rec_SelectNodes_visits h f v namespace_ name) (fun v => walk h f v)
        (fun c wc hc => (ih c wc hc).2) n.Children ls hr
      refine ⟨fun list => ?_, x :: l, ?_, hsub.cons₂ x⟩
      · obtain ⟨r, hr1⟩ := rec_SelectNodes_range_defined
          (fun v l => rec_SelectNodes h f v namespace_ name l) n.Children
          (fun c hc list => by
            obtain ⟨wc, hwc⟩ := hdef c hc
            exact (ih c wc hwc).1 list) list
        refine ⟨r, ?_⟩
        simp only [rec_SelectNodes, hlook, hm]
        exact hr1
      · simp only [rec_SelectNodes_visits, hlook, hm, hl1]
        rfl

theorem printChildren_range_defined (render : Ptr → Option String) (cs : List Ptr)
    (hall : ∀ c ∈ cs, ∃ s, render c = some s) :
    ∀ b, ∃ s, printChildren_range render cs b = some s := by
  induction cs with
  | nil => intro b; exact ⟨b, rfl⟩
  | cons v rest ih =>
    intro b
    obtain ⟨s1, hs1⟩ := hall v (List.mem_cons_self v rest)
    obtain ⟨s, hs⟩ := ih (fun c hc => hall c (List.mem_cons_of_mem v hc)) (b ++ s1)
    exact ⟨s, by simp only [printChildren_range, hs1, hs]⟩

theorem printElement_defined (render : Ptr → Option String) (n : Node)
    (hall : ∀ c ∈ n.Children, ∃ s, render c = some s) : ∃ s, printElement render n = some s := by
  unfold printElement
  simp only []
  split
  · exact ⟨_, rfl⟩
  · obtain ⟨s, hs⟩ := printChildren_range_defined render n.Children hall
      (printElement_attrs n.Attributes
        (if n.Name.Space ≠ "" then "" ++ "<" ++ n.Name.Space ++ ":" ++ n.Name.Local
          else "" ++ "<" ++ n.Name.Local) ++ ">")
    rw [hs]
    simp only []
    split <;> exact ⟨_, rfl⟩

theorem Bytes_of_walk (h : Store) :
    ∀ fuel x w, walk h fuel x = some w →
      (∃ s, Bytes h fuel x = some s)
        ∧ ∃ l, String__visits h fuel x = some l ∧ l.Sublist w := by
  intro fuel
  induction fuel with
  | zero => intro x w hw; simp [walk] at hw
  | succ f ih =>
    intro x w hw
    obtain ⟨n, ls, hlook, hr, rfl⟩ := walk_succ h f x w hw
    have hdef := defined_of_visits_range (fun v => walk h f v) n.Children ls hr
    have hall : ∀ c ∈ n.Children, ∃ s, Bytes h f c = some s := fun c hc => by
      obtain ⟨wc, hwc⟩ := hdef c hc
      exact (ih c wc hwc).1
    obtain ⟨l, hl1, hsub⟩ := visits_range_sublist
      (fun v => String__visits h f v) (fun v => walk h f v)
      (fun c wc hc => (ih c wc hc).2) n.Children ls hr
    have hsingle : [x].Sublist (x :: ls) :=
      List.singleton_sublist.mpr (List.mem_cons_self x ls)
    refine ⟨?_, ?_⟩
    · simp only [Bytes, hlook]
      split
      · exact ⟨_, rfl⟩
      · split
        · exact ⟨_, rfl⟩
        · split
          · exact ⟨_, rfl⟩
          · split
            · exact printElement_defined _ n hall
            · split
              · exact printChildren_range_defined _ n.Children hall ""
              · exact ⟨_, rfl⟩
    · simp only [String__visits, hlook, hl1]
      split
      · exact ⟨_, rfl, hsingle⟩
      · split
        · split
          · exact ⟨_, rfl, hsingle⟩
          · exact ⟨_, rfl, hsub.cons₂ x⟩
        · split
          · exact ⟨_, rfl, hsub.cons₂ x⟩
          · exact ⟨_, rfl, hsingle⟩

/-! ### The lists of visited nodes belong to the functions -/

theorem nodeMatches_of_lookup (h : Store) (namespace_ name : String) (x : Ptr) (n : Node)
    (hn : h[x]? = some n) :
    nodeMatches h namespace_ name x
      = ((namespace_ == "*" || n.Name.Space == namespace_) && n.Name.Local == name) := by
  unfold nodeMatches
  rw [hn]
  simp only [nameMatches]
  rw [string_beq_comm namespace_ n.Name.Space, string_beq_comm name n.Name.Local]

theorem rec_SelectNode_range_eq_find_visits (m : Ptr → Bool)
    (F : Ptr → Option (Option Ptr)) (G : Ptr → Option (List Ptr))
    (ih : ∀ c, F c = (G c).map (fun l => l.find? m)) (cs : List Ptr) :
    rec_SelectNode_range F cs
      = (rec_SelectNode_visits_range F G cs).map (fun l => l.find? m) := by
  induction cs with
  | nil => rfl
  | cons v rest ihcs =>
    have hv := ih v
    cases hg : G v with
    | none =>
      rw [hg] at hv
      simp only [Option.map_none'] at hv
      simp only [rec_SelectNode_range, rec_SelectNode_visits_range, hv, hg, Option.map_none']
    | some l =>
      rw [hg] at hv
      simp only [Option.map_some'] at hv
      cases hf : l.find? m with
      | some p =>
        rw [hf] at hv
        simp only [rec_SelectNode_range, rec_SelectNode_visits_range, hv, hg, Option.map_some',
          hf]
      | none =>
        rw [hf] at hv
        simp only [rec_SelectNode_range, rec_SelectNode_visits_range, hv, hg, ihcs]
        cases rec_SelectNode_visits_range F G rest with
        | none => rfl
        | some ls =>
          simp only [Option.map_some', List.find?_append, hf, Option.none_or]

/-- The answer of `rec_SelectNode` is read off the list of the nodes it visits: it
is the first of them that satisfies the match predicate, and the call returns exactly
when the list is defined. -/
theorem rec_SelectNode_eq_find_visits (h : Store) (namespace_ name : String) :
    ∀ fuel x, rec_SelectNode h fuel x namespace_ name
      = (rec_SelectNode_visits h fuel x namespace_ name).map
          (fun l => l.find? (nodeMatches h namespace_ name)) := by
  intro fuel
  induction fuel with
  | zero => intro x; rfl
  | succ f ih =>
    intro x
    cases hlook : h[x]? with
    | none => simp only [rec_SelectNode, rec_SelectNode_visits, hlook, Option.map_none']
    | some n =>
      have hm := nodeMatches_of_lookup h namespace_ name x n hlook
      simp only [rec_SelectNode, rec_SelectNode_visits, hlook]
      by_cases hc : ((namespace_ == "*" || n.Name.Space == namespace_)
          && n.Name.Local == name) = true
      · rw [if_pos hc, if_pos hc]
        rw [hc] at hm
        simp only [Option.map_some', List.find?_cons, hm]
      · rw [if_neg hc, if_neg hc,
          rec_SelectNode_range_eq_find_visits (nodeMatches h namespace_ name) _
            (fun v => rec_SelectNode_visits h f v namespace_ name) (fun c => ih c)]
        have hm2 : nodeMatches h namespace_ name x = false := by
          rw [hm]
          simpa using hc
        cases rec_SelectNode_visits_range (fun v => rec_SelectNode h f v namespace_ name)
            (fun v => rec_SelectNode_visits h f v namespace_ name) n.Children with
        | none => rfl
        | some ls => simp only [Option.map_some', List.find?_cons, hm2]

theorem rec_SelectNodes_range_eq_filter_visits (m : Ptr → Bool)
    (F : Ptr → List Ptr → Option (List Ptr)) (G : Ptr → Option (List Ptr))
    (ih : ∀ c list, F c list = (G c).map (fun l => list ++ l.filter m)) (cs : List Ptr) :
    ∀ list, rec_SelectNodes_range F cs list
      = (visits_range G cs).map (fun l => list ++ l.filter m) := by
  induction cs with
  | nil => intro list; simp [rec_SelectNodes_range, visits_range]
  | cons v rest ihcs =>
    intro list
    have hv := ih v list
    cases hg : G v with
    | none =>
      rw [hg] at hv
      simp only [Option.map_none'] at hv
      simp only [rec_SelectNodes_range, visits_range, hv, hg, Option.map_none']
    | some l =>
      rw [hg] at hv
      simp only [Option.map_some'] at hv
      simp only [rec_SelectNodes_range, visits_range, hv, hg, ihcs]
      cases visits_range G rest with
      | none => rfl
      | some ls => simp only [Option.map_some', List.filter_append, List.append_assoc]

/-- The answer of `rec_SelectNodes` is read off the list of the nodes it visits: the
visited nodes that satisfy the match predicate are appended to the list, and the call
returns exactly when the list of visited nodes is defined. -/
theorem rec_SelectNodes_eq_filter_visits (h : Store) (namespace_ name : String) :
    ∀ fuel x list, rec_SelectNodes h fuel x namespace_ name list
      = (rec_SelectNodes_visits h fuel x namespace_ name).map
          (fun l => list ++ l.filter (nodeMatches h namespace_ name)) := by
  intro fuel
  induction fuel with
  | zero => intro x list; rfl
  | succ f ih =>
    intro x list
    cases hlook : h[x]? with
    | none => simp only [rec_SelectNodes, rec_SelectNodes_visits, hlook, Option.map_none']
    | some n =>
      have hm := nodeMatches_of_lookup h namespace_ name x n hlook
      simp only [rec_SelectNodes, rec_SelectNodes_visits, hlook]
      by_cases hc : ((namespace_ == "*" || n.Name.Space == namespace_)
          && n.Name.Local == name) = true
      · rw [if_pos hc, if_pos hc]
        rw [hc] at hm
        simp only [Option.map_some', List.filter_cons, hm, if_true, List.filter_nil]
      · rw [if_neg hc, if_neg hc,
          rec_SelectNodes_range_eq_filter_visits (nodeMatches h namespace_ name) _
            (fun v => rec_SelectNodes_visits h f v namespace_ name)
            (fun c l => ih c l)]
        have hm2 : nodeMatches h namespace_ name x = false := by
          rw [hm]
          simpa using hc
        cases visits_range (fun v => rec_SelectNodes_visits h f v namespace_ name)
            n.Children with
        | none => rfl
        | some ls =>
          simp only [Option.map_some', List.filter_cons, hm2, Bool.false_eq_true, if_false]

theorem printChildren_range_isSome (render : Ptr → Option String)
    (G : Ptr → Option (List Ptr)) (ih : ∀ c, (render c).isSome = (G c).isSome)
    (cs : List Ptr) :
    ∀ b, (printChildren_range render cs b).isSome = (visits_range G cs).isSome := by
  induction cs with
  | nil => intro b; rfl
  | cons v rest ihcs =>
    intro b
    have hv := ih v
    cases hg : G v with
    | none =>
      rw [hg] at hv
      cases hr : render v with
      | none =>
        simp only [printChildren_range, visits_range, hr, hg]
        rfl
      | some s => rw [hr] at hv; cases hv
    | some l =>
      rw [hg] at hv
      cases hr : render v with
      | none => rw [hr] at hv; cases hv
      | some s =>
        simp only [printChildren_range, visits_range, hr, hg, ihcs]
        cases visits_range G rest <;> rfl

theorem printElement_isSome (render : Ptr → Option String) (G : Ptr → Option (List Ptr))
    (ih : ∀ c, (render c).isSome = (G c).isSome) (n : Node) :
    (printElement render n).isSome
      = if n.Children.length = 0 ∧ n.Value = "" then true
        else (visits_range G n.Children).isSome := by
  unfold printElement
  simp only []
  by_cases hc : n.Children.length = 0 ∧ n.Value = ""
  · rw [if_pos hc, if_pos hc]
    rfl
  · rw [if_neg hc, if_neg hc, ← printChildren_range_isSome render G ih n.Children
      (printElement_attrs n.Attributes
        (if n.Name.Space ≠ "" then "" ++ "<" ++ n.Name.Space ++ ":" ++ n.Name.Local
          else "" ++ "<" ++ n.Name.Local) ++ ">")]
    cases printChildren_range render n.Children
        (printElement_attrs n.Attributes
          (if n.Name.Space ≠ "" then "" ++ "<" ++ n.Name.Space ++ ":" ++ n.Name.Local
            else "" ++ "<" ++ n.Name.Local) ++ ">") with
    | none => rfl
    | some b1 =>
      simp only []
      split <;> rfl

/-- The call `String` returns exactly when the list of the nodes it visits is
defined. -/
theorem Bytes_isSome_eq_visits (h : Store) :
    ∀ fuel x, (Bytes h fuel x).isSome = (String__visits h fuel x).isSome := by
  intro fuel
  induction fuel with
  | zero => intro x; rfl
  | succ f ih =>
    intro x
    cases hlook : h[x]? with
    | none =>
      simp only [Bytes, String__visits, hlook]
      rfl
    | some n =>
      have hroot := printChildren_range_isSome (fun v => Bytes h f v)
        (fun v => String__visits h f v) (fun c => ih c) n.Children ""
      have helem := printElement_isSome (fun v => Bytes h f v)
        (fun v => String__visits h f v) (fun c => ih c) n
      simp only [Bytes, String__visits, hlook]
      by_cases h1 : n.Type_ = NT_PROCINST
      · rw [if_pos h1, if_pos (Or.inl h1)]
        rfl
      · by_cases h2 : n.Type_ = NT_COMMENT
        · rw [if_neg h1, if_pos h2, if_pos (Or.inr (Or.inl h2))]
          rfl
        · by_cases h3 : n.Type_ = NT_DIRECTIVE
          · rw [if_neg h1, if_neg h2, if_pos h3, if_pos (Or.inr (Or.inr h3))]
            rfl
          · have hleaf : ¬ (n.Type_ = NT_PROCINST ∨ n.Type_ = NT_COMMENT
                ∨ n.Type_ = NT_DIRECTIVE) := by
              rintro (e | e | e)
              · exact h1 e
              · exact h2 e
              · exact h3 e
            rw [if_neg h1, if_neg h2, if_neg h3, if_neg hleaf]
            by_cases h4 : n.Type_ = NT_ELEMENT
            · rw [if_pos h4, if_pos h4, helem]
              by_cases h5 : n.Children.length = 0 ∧ n.Value = ""
              · rw [if_pos h5, if_pos h5]
                rfl
              · rw [if_neg h5, if_neg h5]
                cases visits_range (fun v => String__visits h f v) n.Children <;> rfl
            · rw [if_neg h4, if_neg h4]
              by_cases h6 : n.Type_ = NT_ROOT
              · rw [if_pos h6, if_pos h6]
                unfold printRoot
                rw [hroot]
                cases visits_range (fun v => String__visits h f v) n.Children <;> rfl
              · rw [if_neg h6, if_neg h6]
                rfl

/-! ### Termination -/

theorem selfChild_lookup :
    selfChild[0]? = some ⟨NT_ROOT, ⟨"", ""⟩, [0], [], some 0, "", ""⟩ := rfl

theorem rec_SelectNode_selfChild :
    ∀ fuel, rec_SelectNode selfChild fuel 0 "*" "x" = none := by
  intro fuel
  induction fuel with
  | zero => rfl
  | succ f ih =>
    simp only [rec_SelectNode, selfChild_lookup, rec_SelectNode_range, ih]
    rfl

theorem rec_SelectNodes_selfChild :
    ∀ fuel list, rec_SelectNodes selfChild fuel 0 "*" "x" list = none := by
  intro fuel
  induction fuel with
  | zero => intro list; rfl
  | succ f ih =>
    intro list
    simp only [rec_SelectNodes, selfChild_lookup, rec_SelectNodes_range, ih]
    rfl

theorem Bytes_selfChild : ∀ fuel, Bytes selfChild fuel 0 = none := by
  intro fuel
  induction fuel with
  | zero => rfl
  | succ f ih =>
    simp only [Bytes, selfChild_lookup, printRoot, printChildren_range, ih]
    rfl

/-- C18, counterexample: `selfChild` is reached by `NewNode` and `AddChild(0, 0)`, and
its node 0 is its own child; on it `SelectNode("*", "x")`, `SelectNodes("*", "x")` and
`String` do not return, whatever the bound on the depth of the calls. -/
theorem search_and_rendering_diverge_on_cycle :
    Reachable selfChild
      ∧ children selfChild 0 = [0]
      ∧ (∀ fuel, SelectNode selfChild fuel 0 "*" "x" = none)
      ∧ (∀ fuel, SelectNodes selfChild fuel 0 "*" "x" = none)
      ∧ (∀ fuel, String_ selfChild fuel 0 = none) :=
  ⟨Reachable.addChild _ 0 0 (Reachable.newNode [] NT_ROOT Reachable.empty)
      (by decide) (by decide),
    rfl, rec_SelectNode_selfChild, fun fuel => rec_SelectNodes_selfChild fuel [],
    Bytes_selfChild⟩

theorem exists_length_bound (h : Store) : ∃ k, ∀ n ∈ h, n.Name.Local.length < k := by
  induction h with
  | nil => exact ⟨0, fun n hn => absurd hn (List.not_mem_nil n)⟩
  | cons a rest ih =>
    obtain ⟨k, hk⟩ := ih
    refine ⟨max k (a.Name.Local.length + 1), ?_⟩
    intro n hn
    rcases List.mem_cons.mp hn with e | hn2
    · rw [e]
      exact lt_of_lt_of_le (Nat.lt_succ_self _) (le_max_right _ _)
    · exact lt_of_lt_of_le (hk n hn2) (le_max_left _ _)

theorem exists_unmatched_name (h : Store) :
    ∃ name : String, ∀ p, nodeMatches h "*" name p = false := by
  obtain ⟨k, hk⟩ := exists_length_bound h
  refine ⟨String.mk (List.replicate k 'a'), ?_⟩
  intro p
  unfold nodeMatches
  cases hlook : h[p]? with
  | none => rfl
  | some n =>
    have hmem : n ∈ h := (List.getElem?_eq_some.mp hlook).2 ▸ List.getElem_mem _
    have hlt := hk n hmem
    simp only [nameMatches, Bool.and_eq_false_imp, beq_iff_eq]
    intro _
    rw [Bool.eq_false_iff]
    intro he
    have he2 : String.mk (List.replicate k 'a') = n.Name.Local := by simpa using he
    rw [← he2] at hlt
    simp [String.length] at hlt

theorem exists_child_on_cycle (h : Store) (y : Ptr) (hy : Descendant h y y) :
    ∃ c ∈ children h y, Descendant h c c := by
  obtain ⟨c, hyc, hcy⟩ := Relation.TransGen.head'_iff.mp hy
  exact ⟨c, hyc, Relation.TransGen.tail' hcy hyc⟩

theorem rec_SelectNode_range_none (F : Ptr → Option (Option Ptr)) (cs : List Ptr)
    (hno : ∀ v q, F v ≠ some (some q)) (c : Ptr) (hc : c ∈ cs) (hnone : F c = none) :
    rec_SelectNode_range F cs = none := by
  induction cs with
  | nil => cases hc
  | cons v rest ih =>
    simp only [rec_SelectNode_range]
    cases hv : F v with
    | none => rfl
    | some r =>
      cases r with
      | some q => exact absurd hv (hno v q)
      | none =>
        rcases List.mem_cons.mp hc with e | hc2
        · rw [e, hv] at hnone
          cases hnone
        · exact ih hc2

theorem visits_range_none (G : Ptr → Option (List Ptr)) (cs : List Ptr) (c : Ptr)
    (hc : c ∈ cs) (hnone : G c = none) : visits_range G cs = none := by
  induction cs with
  | nil => cases hc
  | cons v rest ih =>
    simp only [visits_range]
    rcases List.mem_cons.mp hc with e | hc2
    · rw [← e, hnone]
    · rw [ih hc2]
      cases G v <;> rfl

/-- On a node that is its own descendant the two searches do not return, whatever
the bound on the depth of the calls, when the name they look for is the local name of
no node; such a name exists in every store. -/
theorem searches_diverge_on_every_cycle (h : Store) (x : Ptr) (hx : Descendant h x x) :
    ∃ name : String, ∀ fuel,
      SelectNode h fuel x "*" name = none ∧ SelectNodes h fuel x "*" name = none := by
  obtain ⟨name, hname⟩ := exists_unmatched_name h
  have hno : ∀ fuel v q, rec_SelectNode h fuel v "*" name ≠ some (some q) := by
    intro fuel v q hv
    rw [rec_SelectNode_eq_find_visits] at hv
    cases hl : rec_SelectNode_visits h fuel v "*" name with
    | none => rw [hl] at hv; cases hv
    | some l =>
      rw [hl] at hv
      simp only [Option.map_some', Option.some.injEq] at hv
      have := List.find?_some hv
      rw [hname q] at this
      cases this
  have hcond : ∀ n : Node, (("*" == "*" || n.Name.Space == "*") && n.Name.Local == name)
      = true → ∀ y : Ptr, (h[y]? : Option Node) = some n → False := by
    intro n hc y hlook
    have := nodeMatches_of_lookup h "*" name y n hlook
    rw [hname y, hc] at this
    cases this
  have h1 : ∀ fuel y, Descendant h y y → rec_SelectNode h fuel y "*" name = none := by
    intro fuel
    induction fuel with
    | zero => intro y _; rfl
    | succ f ih =>
      intro y hy
      cases hlook : h[y]? with
      | none => simp only [rec_SelectNode, hlook]
      | some n =>
        obtain ⟨c, hc, hcc⟩ := exists_child_on_cycle h y hy
        rw [children_of_lookup h y n hlook] at hc
        simp only [rec_SelectNode, hlook]
        rw [if_neg (fun hcnd => hcond n hcnd y hlook)]
        exact rec_SelectNode_range_none _ n.Children (fun v q => hno f v q) c hc (ih c hcc)
  have h2 : ∀ fuel y, Descendant h y y → rec_SelectNodes_visits h fuel y "*" name = none := by
    intro fuel
    induction fuel with
    | zero => intro y _; rfl
    | succ f ih =>
      intro y hy
      cases hlook : h[y]? with
      | none => simp only [rec_SelectNodes_visits, hlook]
      | some n =>
        obtain ⟨c, hc, hcc⟩ := exists_child_on_cycle h y hy
        rw [children_of_lookup h y n hlook] at hc
        simp only [rec_SelectNodes_visits, hlook]
        rw [if_neg (fun hcnd => hcond n hcnd y hlook),
          visits_range_none _ n.Children c hc (ih c hcc)]
  refine ⟨name, fun fuel => ⟨h1 fuel x hx, ?_⟩⟩
  unfold SelectNodes
  rw [rec_SelectNodes_eq_filter_visits, h2 fuel x hx]
  rfl

theorem visits_props_of_sublist (h : Store) (x : Ptr) (l w : List Ptr)
    (hw : (∀ y ∈ w, InSubtree h x y ∧ y < h.length) ∧ w.Nodup) (hsub : l.Sublist w) :
    l.Nodup ∧ (∀ y ∈ l, InSubtree h x y) ∧ l.length ≤ h.length := by
  have hnd : l.Nodup := hw.2.sublist hsub
  refine ⟨hnd, fun y hy => (hw.1 y (hsub.subset hy)).1, ?_⟩
  exact length_le_of_nodup_of_lt l h.length hnd (fun y hy => (hw.1 y (hsub.subset hy)).2)

/-- C18, as amended: in every reachable state, `SelectNode`, `SelectNodes` and
`String` called on a node that is not its own descendant return, within a depth of
calls of at most the number of nodes; the nodes on which the recursive function is
called are nodes of the subtree of the receiver, each met once, so no more of them
than there are nodes; the answer of `SelectNode` is the first of them that matches
and the answer of `SelectNodes` the list of those that match. -/
theorem search_and_rendering_terminate (h : Store) (hr : Reachable h)
    (x : Ptr) (hx : x < h.length) (hcyc : ¬ Descendant h x x) :
    ∀ fuel, h.length ≤ fuel → ∀ namespace_ name : String,
      (∃ r l, SelectNode h fuel x namespace_ name = some r
          ∧ rec_SelectNode_visits h fuel x namespace_ name = some l
          ∧ r = l.find? (nodeMatches h namespace_ name)
          ∧ l.Nodup ∧ (∀ y ∈ l, InSubtree h x y) ∧ l.length ≤ h.length)
        ∧ (∃ r l, SelectNodes h fuel x namespace_ name = some r
          ∧ rec_SelectNodes_visits h fuel x namespace_ name = some l
          ∧ r = l.filter (nodeMatches h namespace_ name)
          ∧ l.Nodup ∧ (∀ y ∈ l, InSubtree h x y) ∧ l.length ≤ h.length)
        ∧ (∃ s l, String_ h fuel x = some s
          ∧ String__visits h fuel x = some l
          ∧ l.Nodup ∧ (∀ y ∈ l, InSubtree h x y) ∧ l.length ≤ h.length) := by
  have hwf := wellFormed_of_reachable hr
  obtain ⟨N, hN⟩ := walk_terminates h hwf x (acc_of_not_on_cycle h hwf x hcyc) hx
  obtain ⟨w, hw0⟩ := hN N (le_refl N)
  have hprops := walk_props h hwf N x w hcyc hw0
  have hlen : w.length ≤ h.length :=
    length_le_of_nodup_of_lt w h.length hprops.2 (fun y hy => (hprops.1 y hy).2)
  intro fuel hfuel namespace_ name
  have hw : walk h fuel x = some w :=
    walk_of_le h w.length x w (walk_at_length h N x w hw0) fuel (le_trans hlen hfuel)
  refine ⟨?_, ?_, ?_⟩
  · obtain ⟨r, l, h1, h2, hsub⟩ := rec_SelectNode_of_walk h namespace_ name fuel x w hw
    refine ⟨r, l, h1, h2, ?_, visits_props_of_sublist h x l w hprops hsub⟩
    have := rec_SelectNode_eq_find_visits h namespace_ name fuel x
    rw [h1, h2] at this
    exact Option.some.inj this
  · obtain ⟨h1, l, h2, hsub⟩ := rec_SelectNodes_of_walk h namespace_ name fuel x w hw
    obtain ⟨r, hr1⟩ := h1 []
    refine ⟨r, l, hr1, h2, ?_, visits_props_of_sublist h x l w hprops hsub⟩
    have := rec_SelectNodes_eq_filter_visits h namespace_ name fuel x []
    rw [hr1, h2] at this
    simpa using this
  · obtain ⟨⟨s, h1⟩, l, h2, hsub⟩ := Bytes_of_walk h fuel x w hw
    exact ⟨s, l, h1, h2, visits_props_of_sublist h x l w hprops hsub⟩

theorem reachable_cycleAside : Reachable cycleAside :=
  Reachable.addChild _ 1 2
    (Reachable.addChild _ 0 0
      (Reachable.newNode _ NT_ELEMENT
        (Reachable.newNode _ NT_ROOT (Reachable.newNode [] NT_ROOT Reachable.empty)))
      (by decide) (by decide))
    (by decide) (by decide)

/-- In `cycleAside` the node 0 is its own descendant, and the node 1 is not. -/
theorem cycleAside_cycle :
    Descendant cycleAside 0 0 ∧ ¬ Acyclic cycleAside ∧ ¬ Descendant cycleAside 1 1 := by
  have h0 : Descendant cycleAside 0 0 :=
    Relation.TransGen.single (show 0 ∈ children cycleAside 0 by decide)
  refine ⟨h0, fun hac => hac 0 h0, ?_⟩
  intro hd
  obtain ⟨c, hc, hcy⟩ := Relation.TransGen.head'_iff.mp hd
  have hc2 : c = 2 := by
    have : c ∈ children cycleAside 1 := hc
    rw [show children cycleAside 1 = [2] by decide] at this
    exact List.mem_singleton.mp this
  subst hc2
  rcases Relation.ReflTransGen.cases_head hcy with e | ⟨d, hd2, _⟩
  · exact absurd e (by decide)
  · have : d ∈ children cycleAside 2 := hd2
    rw [show children cycleAside 2 = [] by decide] at this
    cases this

/-- Witness of C18 as amended: `cycleAside` is reachable and its node 0 is its own
child, the node 1 is not its own descendant, and the three operations return on it. -/
theorem search_and_rendering_terminate_witness :
    (Reachable cycleAside ∧ 1 < cycleAside.length ∧ ¬ Descendant cycleAside 1 1)
      ∧ ∀ fuel, cycleAside.length ≤ fuel → ∀ namespace_ name : String,
        (∃ r l, SelectNode cycleAside fuel 1 namespace_ name = some r
            ∧ rec_SelectNode_visits cycleAside fuel 1 namespace_ name = some l
            ∧ r = l.find? (nodeMatches cycleAside namespace_ name)
            ∧ l.Nodup ∧ (∀ y ∈ l, InSubtree cycleAside 1 y)
            ∧ l.length ≤ cycleAside.length)
          ∧ (∃ r l, SelectNodes cycleAside fuel 1 namespace_ name = some r
            ∧ rec_SelectNodes_visits cycleAside fuel 1 namespace_ name = some l
            ∧ r = l.filter (nodeMatches cycleAside namespace_ name)
            ∧ l.Nodup ∧ (∀ y ∈ l, InSubtree cycleAside 1 y)
            ∧ l.length ≤ cycleAside.length)
          ∧ (∃ s l, String_ cycleAside fuel 1 = some s
            ∧ String__visits cycleAside fuel 1 = some l
            ∧ l.Nodup ∧ (∀ y ∈ l, InSubtree cycleAside 1 y)
            ∧ l.length ≤ cycleAside.length) :=
  have hr : Reachable cycleAside := reachable_cycleAside
  have hx : 1 < cycleAside.length := by decide
  have hcyc : ¬ Descendant cycleAside 1 1 := cycleAside_cycle.2.2
  ⟨⟨hr, hx, hcyc⟩, search_and_rendering_terminate cycleAside hr 1 hx hcyc⟩

end store

end xmlx
